import Mathlib

/-!
Verification of the hwp repository's binary-format core against its
natural-language specification.

The Go sources are shallowly embedded: machine bytes are `Nat` values
(< 256 by construction of the inputs we quantify over), `uint32`
arithmetic is `Nat` arithmetic with explicit `% 2^32`, fallible
operations return `Except String` or `Option`, and the stateful
scanners become explicit state-passing functions.  Every definition is
translated from the corresponding Go function, which is named in its
doc comment.
-/

set_option maxHeartbeats 1600000
set_option maxRecDepth 8000

namespace HwpV5

/-! ### Crypto: `internal/hwpv5/crypto.go` -/

/-- One state transition of `msvcRand.rand` (crypto.go:96-99):
`r.state = r.state*214013 + 2531011` on a `uint32`. -/
def msvcStep (state : Nat) : Nat :=
  (state * 214013 + 2531011) % 4294967296

/-- The value a single `msvcRand.rand` call returns after the state
transition: `(r.state >> 16) & 0x7FFF`. -/
def msvcOut (state : Nat) : Nat :=
  (msvcStep state >>> 16) &&& 0x7FFF

/-- The pseudorandom fill loop of `deriveKey` (crypto.go:61-72),
expressed by recursion on the number `k = 256 - i` of remaining array
slots.  Each iteration draws `val` then `cnt`, and writes the byte
`val & 0xFF` exactly `(cnt & 0x0F) + 1` times, truncated to the
remaining slots; every iteration writes at least one byte, which is
the termination argument (mirroring `i` strictly increasing in the Go
loop). -/
def fillRandom (state : Nat) (k : Nat) : List Nat :=
  if hk : k = 0 then []
  else
    let st1 := msvcStep state
    let val := (st1 >>> 16) &&& 0x7FFF
    let st2 := msvcStep st1
    let cnt := (st2 >>> 16) &&& 0x7FFF
    let v := val &&& 0xFF
    let c := (cnt &&& 0x0F) + 1
    let m := min c k
    List.replicate m v ++ fillRandom st2 (k - m)
termination_by k
decreasing_by
  have h1 : 1 ≤ min c k := le_min (Nat.le_add_left 1 _) (Nat.one_le_iff_ne_zero.mpr hk)
  omega

/-- Little-endian `uint32` of four bytes (`binary.LittleEndian.Uint32`). -/
def uint32LE (b0 b1 b2 b3 : Nat) : Nat :=
  b0 + b1 * 256 + b2 * 65536 + b3 * 16777216

/-- Function `deriveKey` (crypto.go:51-88): extract the seed from the first 4
bytes, fill a 256-byte pseudorandom array with the MSVC generator, XOR
it with the distribution data, and return the 16 bytes at offset
`(seed & 0x0F) + 4`.  The two `errors.New` branches of the source are
the two `.error` branches here. -/
def deriveKey (distData : List Nat) : Except String (List Nat) :=
  if distData.length ≠ 256 then .error "invalid distribution data size"
  else
    let seed := uint32LE (distData.getD 0 0) (distData.getD 1 0)
      (distData.getD 2 0) (distData.getD 3 0)
    let randomArray := fillRandom seed 256
    let xorData := List.zipWith (fun a b => a ^^^ b) distData randomArray
    let offset := (seed &&& 0x0F) + 4
    if offset + 16 > 256 then .error "invalid key offset"
    else .ok ((xorData.drop offset).take 16)

/-- The seed `deriveKey` reads: first 4 bytes little-endian. -/
def seedOf (distData : List Nat) : Nat :=
  uint32LE (distData.getD 0 0) (distData.getD 1 0)
    (distData.getD 2 0) (distData.getD 3 0)

/-- Spec-side description (claim C2 / spec §4.1.1 step 3) of the
pseudorandom array: the first `n` draws of (`val`, `cnt`) pairs, each
contributing a run of `(cnt & 0x0F) + 1` copies of the byte
`val & 0xFF`, concatenated; the array is the first 256 bytes of this
stream. -/
def specRuns (state : Nat) : Nat → List Nat
  | 0 => []
  | n + 1 =>
    let st1 := msvcStep state
    let val := (st1 >>> 16) &&& 0x7FFF
    let st2 := msvcStep st1
    let cnt := (st2 >>> 16) &&& 0x7FFF
    List.replicate ((cnt &&& 0x0F) + 1) (val &&& 0xFF) ++ specRuns st2 n

/-- Spec-side pseudorandom array: the run stream truncated at 256
bytes ("truncated at 256 bytes" in the claim).  256 draws suffice
because every run has length at least 1. -/
def specRandomArray (seed : Nat) : List Nat :=
  (specRuns seed 256).take 256

/-- Spec-side key (claim C2): XOR the truncated run stream with the
input and take the 16 bytes at offset `(seed & 0x0F) + 4`. -/
def specKey (distData : List Nat) : List Nat :=
  let seed := seedOf distData
  let xorData :=
    List.zipWith (fun a b => a ^^^ b) distData (specRandomArray seed)
  ((xorData.drop ((seed &&& 0x0F) + 4)).take 16)

theorem specRuns_length_ge (state n : Nat) : n ≤ (specRuns state n).length := by
  induction n generalizing state with
  | zero => simp [specRuns]
  | succ n ih =>
    simp only [specRuns, List.length_append, List.length_replicate]
    have := ih (msvcStep (msvcStep state))
    omega

/-- The imperative fill loop equals the truncated run stream: writing
each run truncated at the end of the array produces the same bytes as
concatenating whole runs and truncating once. -/
theorem fillRandom_eq_take_specRuns (k : Nat) (state n : Nat) (hn : k ≤ n) :
    fillRandom state k = (specRuns state n).take k := by
  induction k using Nat.strong_induction_on generalizing state n with
  | _ k ih =>
    rcases Nat.eq_zero_or_pos k with hk | hk
    · subst hk; rw [fillRandom]; simp
    · obtain ⟨n', rfl⟩ : ∃ n', n = n' + 1 := ⟨n - 1, by omega⟩
      have hkne : ¬ k = 0 := by omega
      rw [fillRandom]
      simp only [hkne, dite_false, specRuns]
      have hc1 : 1 ≤ ((msvcStep (msvcStep state) >>> 16) &&& 0x7FFF &&& 0x0F) + 1 :=
        Nat.le_add_left 1 _
      generalize hc : ((msvcStep (msvcStep state) >>> 16) &&& 0x7FFF &&& 0x0F) + 1 = c
      rw [hc] at hc1
      rw [List.take_append_eq_append_take, List.take_replicate,
        List.length_replicate]
      rw [ih (k - min c k) (by omega) (msvcStep (msvcStep state)) n' (by omega)]
      rw [Nat.min_comm c k]
      have heq : k - min k c = k - c := by omega
      rw [heq]

/-- The real `deriveKey` array equals the spec-worded array. -/
theorem fillRandom_eq_specRandomArray (seed : Nat) :
    fillRandom seed 256 = specRandomArray seed :=
  fillRandom_eq_take_specRuns 256 seed 256 le_rfl

theorem fillRandom_length (state k : Nat) : (fillRandom state k).length = k := by
  induction k using Nat.strong_induction_on generalizing state with
  | _ k ih =>
    rw [fillRandom]
    by_cases hk : k = 0
    · simp [hk]
    · simp only [hk, dite_false, List.length_append, List.length_replicate]
      have h1 : 1 ≤ min (((msvcStep (msvcStep state) >>> 16) &&& 0x7FFF &&& 0x0F) + 1) k :=
        le_min (Nat.le_add_left 1 _) (Nat.one_le_iff_ne_zero.mpr hk)
      rw [ih _ (by omega)]
      omega

/-- The low 4 bits of anything are at most 15. -/
theorem and_fifteen_le (x : Nat) : x &&& 15 ≤ 15 := by
  have h : x &&& 15 = x % 16 := by
    have := Nat.and_pow_two_sub_one_eq_mod x 4
    norm_num at this
    exact this
  have h2 : x % 16 < 16 := Nat.mod_lt _ (by norm_num)
  omega

/-- C2: Key derivation is a deterministic, bit-exact pure function of its
256-byte input.  `deriveKey` (a pure Lean function, hence deterministic:
for a fixed input the resulting key is always identical) succeeds on every
256-byte input and returns exactly the key described by the claim: seed =
first 4 bytes little-endian, MSVC LCG draws of `(state >> 16) & 0x7FFF`
with `state = state*214013 + 2531011 mod 2^32`, a 256-byte pseudorandom
array made of runs of `(cnt & 0x0F) + 1` copies of `val & 0xFF` truncated
at 256 bytes, XORed byte-for-byte with the input, sliced at offset
`(seed & 0x0F) + 4` for 16 bytes. -/
theorem deriveKey_bit_exact (distData : List Nat)
    (h : distData.length = 256) :
    deriveKey distData = .ok (specKey distData) := by
  unfold deriveKey specKey seedOf
  have h15 : uint32LE (distData.getD 0 0) (distData.getD 1 0)
      (distData.getD 2 0) (distData.getD 3 0) &&& 0x0F ≤ 15 := and_fifteen_le _
  simp only [h, ne_eq, not_true_eq_false, reduceIte]
  rw [fillRandom_eq_specRandomArray]
  rw [if_neg (by omega)]

/-- Witness for C2 at the all-zero 256-byte input. -/
theorem deriveKey_bit_exact_witness :
    deriveKey (List.replicate 256 0) = .ok (specKey (List.replicate 256 0)) :=
  deriveKey_bit_exact (List.replicate 256 0) (List.length_replicate 256 0)

/-- C10: key derivation is total on well-sized input: on any 256-byte
input `deriveKey` succeeds with a 16-byte key, and the "invalid key
offset" branch is unreachable because the offset `(seed & 0x0F) + 4` is
at most 19, so `offset + 16` never exceeds 256.  (The fill loop's
termination — every iteration writes at least one byte — is the
termination argument of `fillRandom` itself.) -/
theorem deriveKey_total (distData : List Nat) (h : distData.length = 256) :
    (∃ k, deriveKey distData = .ok k ∧ k.length = 16) ∧
      (seedOf distData &&& 0x0F) + 4 ≤ 19 ∧
      ¬ ((seedOf distData &&& 0x0F) + 4 + 16 > 256) := by
  have h15 : seedOf distData &&& 0x0F ≤ 15 := and_fifteen_le _
  refine ⟨⟨specKey distData, deriveKey_bit_exact distData h, ?_⟩, by omega, by omega⟩
  unfold specKey
  have hlen : (specRandomArray (seedOf distData)).length = 256 := by
    unfold specRandomArray
    rw [List.length_take]
    have := specRuns_length_ge (seedOf distData) 256
    omega
  simp only [List.length_take, List.length_drop, List.length_zipWith, hlen, h]
  omega

/-- Witness for C10 at the all-zero 256-byte input. -/
theorem deriveKey_total_witness :
    (∃ k, deriveKey (List.replicate 256 0) = .ok k ∧ k.length = 16) ∧
      (seedOf (List.replicate 256 0) &&& 0x0F) + 4 ≤ 19 ∧
      ¬ ((seedOf (List.replicate 256 0) &&& 0x0F) + 4 + 16 > 256) :=
  deriveKey_total (List.replicate 256 0) (List.length_replicate 256 0)

/-! ### Record framing: `internal/hwpv5/record.go` -/

/-- Little-endian `uint16` of two bytes (`binary.LittleEndian.Uint16`). -/
def uint16LE (b0 b1 : Nat) : Nat :=
  b0 + b1 * 256

/-- The four little-endian bytes of a `uint32` value. -/
def toLE4 (x : Nat) : List Nat :=
  [x % 256, x / 256 % 256, x / 65536 % 256, x / 16777216 % 256]

/-- The record-framing part of `RecScanner.ScanNext` (record.go:132-152):
read the little-endian `uint32` header word, split it into the 10-bit tag,
10-bit level, and 12-bit inline size, escape to a following 32-bit
extended size when the inline field is the sentinel `0xfff`, and read
exactly `size` payload bytes.  A short header or a truncated payload
(`binary.Read` / `io.ReadFull` failing) is `none`.  The result is
`((tag, level, size, payload), remaining stream)`. -/
def scanNextRaw (s : List Nat) :
    Option ((Nat × Nat × Nat × List Nat) × List Nat) :=
  match s with
  | b0 :: b1 :: b2 :: b3 :: rest =>
    let headerRaw := uint32LE b0 b1 b2 b3
    let tag := headerRaw &&& 0x3ff
    let level := (headerRaw >>> 10) &&& 0x3ff
    let size0 := (headerRaw >>> 20) &&& 0xfff
    if size0 = 0xfff then
      match rest with
      | c0 :: c1 :: c2 :: c3 :: rest2 =>
        let size := uint32LE c0 c1 c2 c3
        if size ≤ rest2.length then
          some ((tag, level, size, rest2.take size), rest2.drop size)
        else none
      | _ => none
    else
      if size0 ≤ rest.length then
        some ((tag, level, size0, rest.take size0), rest.drop size0)
      else none
  | _ => none

/-- The inline encoding described by claim C3: tag, level and size packed
into one little-endian 32-bit header word (tag in bits 0-9, level in bits
10-19, size in bits 20-31), followed by exactly `size` payload bytes. -/
def encodeRecordInline (tag level size : Nat) (payload : List Nat) : List Nat :=
  toLE4 (tag + level * 1024 + size * 1048576) ++ payload

/-- The extended encoding described by claim C3: header word whose size
field is the sentinel `0xfff`, then the true 32-bit size little-endian,
then the payload. -/
def encodeRecordExtended (tag level size : Nat) (payload : List Nat) : List Nat :=
  toLE4 (tag + level * 1024 + 0xfff * 1048576) ++ toLE4 size ++ payload

theorem uint32LE_toLE4 (x : Nat) (hx : x < 4294967296) :
    uint32LE (x % 256) (x / 256 % 256) (x / 65536 % 256)
      (x / 16777216 % 256) = x := by
  unfold uint32LE
  omega

/-- Splitting the packed header word back into its three fields. -/
theorem headerFields (tag level sf : Nat) (ht : tag < 1024)
    (hl : level < 1024) (hs : sf < 4096) :
    (tag + level * 1024 + sf * 1048576) &&& 0x3ff = tag ∧
    ((tag + level * 1024 + sf * 1048576) >>> 10) &&& 0x3ff = level ∧
    ((tag + level * 1024 + sf * 1048576) >>> 20) &&& 0xfff = sf := by
  have e1 : ∀ y : Nat, y &&& 1023 = y % 1024 := fun y => by
    have h := Nat.and_pow_two_sub_one_eq_mod y 10
    norm_num at h
    exact h
  have e2 : ∀ y : Nat, y &&& 4095 = y % 4096 := fun y => by
    have h := Nat.and_pow_two_sub_one_eq_mod y 12
    norm_num at h
    exact h
  have s1 : ∀ y : Nat, y >>> 10 = y / 1024 := fun y => by
    have h := Nat.shiftRight_eq_div_pow y 10
    norm_num at h
    exact h
  have s2 : ∀ y : Nat, y >>> 20 = y / 1048576 := fun y => by
    have h := Nat.shiftRight_eq_div_pow y 20
    norm_num at h
    exact h
  refine ⟨?_, ?_, ?_⟩
  · rw [e1]; omega
  · rw [s1, e1]; omega
  · rw [s2, e2]; omega

/-- C3: record framing round-trips.  For sizes at or above the 12-bit
sentinel `0xfff`, the extended encoding decodes through `scanNextRaw` back
to the same tag, level, size and payload; for sizes below the sentinel,
the inline encoding decodes back identically, in both cases leaving any
following bytes untouched. -/
theorem record_framing_roundtrip (tag level size : Nat)
    (payload extra : List Nat) (ht : tag < 1024) (hl : level < 1024)
    (hp : payload.length = size) :
    (0xfff ≤ size → size < 4294967296 →
      scanNextRaw (encodeRecordExtended tag level size payload ++ extra) =
        some ((tag, level, size, payload), extra)) ∧
    (size < 0xfff →
      scanNextRaw (encodeRecordInline tag level size payload ++ extra) =
        some ((tag, level, size, payload), extra)) := by
  constructor
  · intro hge hlt
    unfold encodeRecordExtended toLE4 scanNextRaw
    have hx : tag + level * 1024 + 0xfff * 1048576 < 4294967296 := by omega
    simp only [List.cons_append, List.nil_append]
    rw [uint32LE_toLE4 _ hx]
    obtain ⟨f1, f2, f3⟩ := headerFields tag level 0xfff ht hl (by norm_num)
    rw [f1, f2, f3]
    simp only [if_pos rfl]
    rw [uint32LE_toLE4 size hlt]
    rw [← hp, List.take_left, List.drop_left]
    simp
  · intro hlt
    unfold encodeRecordInline toLE4 scanNextRaw
    have hx : tag + level * 1024 + size * 1048576 < 4294967296 := by omega
    simp only [List.cons_append, List.nil_append]
    rw [uint32LE_toLE4 _ hx]
    obtain ⟨f1, f2, f3⟩ := headerFields tag level size ht hl (by omega)
    rw [f1, f2, f3]
    rw [if_neg (by omega)]
    rw [← hp, List.take_left, List.drop_left]
    simp

/-- Witness for C3: a concrete extended-path record (tag 0x43, level 2,
size 0xfff) and a concrete inline-path record (tag 0x43, level 2,
size 3). -/
theorem record_framing_roundtrip_witness :
    scanNextRaw (encodeRecordExtended 0x43 2 0xfff
        (List.replicate 0xfff 7) ++ [9]) =
      some ((0x43, 2, 0xfff, List.replicate 0xfff 7), [9]) ∧
    scanNextRaw (encodeRecordInline 0x43 2 3 [1, 2, 3] ++ [9]) =
      some ((0x43, 2, 3, [1, 2, 3]), [9]) :=
  ⟨(record_framing_roundtrip 0x43 2 0xfff (List.replicate 0xfff 7) [9]
      (by norm_num) (by norm_num) (List.length_replicate _ _)).1
      le_rfl (by norm_num),
   (record_framing_roundtrip 0x43 2 3 [1, 2, 3] [9]
      (by norm_num) (by norm_num) rfl).2 (by norm_num)⟩

/-! ### List-header records: `RecScanner.decodeListHeaderRecord`
(record.go:249-278) -/

/-- The Go `int16(uint16 value)` reinterpretation. -/
def int16ofUint16 (v : Nat) : Int :=
  if v < 32768 then (v : Int) else (v : Int) - 65536

/-- The fields of `RecListHeader` filled in by
`decodeListHeaderRecord` (the record-header triple is framing and
carried separately). -/
structure RecListHeader where
  isCell : Bool
  paraCount : Int
  property : Nat
  colIndex : Nat
  rowIndex : Nat
  colSpan : Nat
  rowSpan : Nat
deriving Repr, DecidableEq

/-- Method `RecScanner.decodeListHeaderRecord` (record.go:249-278): extract the
16-bit paragraph count and 32-bit property field when the payload has at
least 6 bytes; flag the record as a table cell when the payload has at
least 33 bytes, reading col/row index and spans from byte offsets 1, 3,
5, 7 of `cellData = data[7:33]` and defaulting zero spans to 1. -/
def decodeListHeaderRecord (data : List Nat) : RecListHeader :=
  let base : RecListHeader :=
    ⟨false, 0, 0, 0, 0, 0, 0⟩
  let rec1 :=
    if 6 ≤ data.length then
      { base with
        paraCount := int16ofUint16 (uint16LE (data.getD 0 0) (data.getD 1 0)),
        property := uint32LE (data.getD 2 0) (data.getD 3 0)
          (data.getD 4 0) (data.getD 5 0) }
    else base
  if 33 ≤ data.length then
    let cellData := (data.drop 7).take 26
    if 8 ≤ cellData.length then
      let colSpan0 := cellData.getD 5 0
      let rowSpan0 := cellData.getD 7 0
      { rec1 with
        isCell := true
        colIndex := cellData.getD 1 0
        rowIndex := cellData.getD 3 0
        colSpan := if colSpan0 = 0 then 1 else colSpan0
        rowSpan := if rowSpan0 = 0 then 1 else rowSpan0 }
    else { rec1 with isCell := true }
  else rec1

theorem cellData_getD (data : List Nat) (i : Nat) (hi : i < 26)
    (h : 33 ≤ data.length) :
    ((data.drop 7).take 26).getD i 0 = data.getD (7 + i) 0 := by
  rw [List.getD_eq_getElem?_getD, List.getD_eq_getElem?_getD,
    List.getElem?_take, if_pos hi, List.getElem?_drop]

/-- C6: a list-header record is flagged as a table cell iff its payload
is at least 33 bytes; the paragraph count and property field come from
the payload head (when it has the 6 bytes they occupy), and the cell
coordinates come from fixed single-byte offsets 1, 3, 5, 7 inside the
26-byte trailing block `data[7:33]` with zero spans replaced by 1. -/
theorem listHeader_cell_iff (data : List Nat) :
    ((decodeListHeaderRecord data).isCell = true ↔ 33 ≤ data.length) ∧
    (6 ≤ data.length →
      (decodeListHeaderRecord data).paraCount =
        int16ofUint16 (uint16LE (data.getD 0 0) (data.getD 1 0)) ∧
      (decodeListHeaderRecord data).property =
        uint32LE (data.getD 2 0) (data.getD 3 0)
          (data.getD 4 0) (data.getD 5 0)) ∧
    (33 ≤ data.length →
      (decodeListHeaderRecord data).colIndex = data.getD 8 0 ∧
      (decodeListHeaderRecord data).rowIndex = data.getD 10 0 ∧
      (decodeListHeaderRecord data).colSpan =
        (if data.getD 12 0 = 0 then 1 else data.getD 12 0) ∧
      (decodeListHeaderRecord data).rowSpan =
        (if data.getD 14 0 = 0 then 1 else data.getD 14 0) ∧
      1 ≤ (decodeListHeaderRecord data).colSpan ∧
      1 ≤ (decodeListHeaderRecord data).rowSpan) := by
  by_cases h33 : 33 ≤ data.length
  · have h8 : 8 ≤ ((data.drop 7).take 26).length := by
      rw [List.length_take, List.length_drop]
      omega
    have h6 : 6 ≤ data.length := by omega
    refine ⟨?_, fun _ => ?_, fun _ => ?_⟩
    · unfold decodeListHeaderRecord
      simp only [if_pos h33, if_pos h8, if_pos h6]
      simp [h33]
    · unfold decodeListHeaderRecord
      simp only [if_pos h33, if_pos h8, if_pos h6]
      constructor <;> trivial
    · unfold decodeListHeaderRecord
      simp only [if_pos h33, if_pos h8, if_pos h6]
      rw [cellData_getD data 1 (by norm_num) h33,
        cellData_getD data 3 (by norm_num) h33,
        cellData_getD data 5 (by norm_num) h33,
        cellData_getD data 7 (by norm_num) h33]
      norm_num
      refine ⟨?_, ?_⟩ <;> split <;> omega
  · have hcell : (decodeListHeaderRecord data).isCell = false := by
      unfold decodeListHeaderRecord
      simp only [if_neg h33]
      split <;> rfl
    refine ⟨by simp [hcell, h33], fun h6 => ?_, fun h => absurd h h33⟩
    unfold decodeListHeaderRecord
    simp only [if_neg h33, if_pos h6]
    constructor <;> trivial

/-! ### Paragraph text control codes: `paraTextDecoder` (the
`decodeParaTextElements` source file) -/

/-- The typed paragraph-text elements (the `ParaTextElement` sum type of
the source).  The literal run carries its accumulated code units; the
named control markers carry nothing beyond their identity (in the source
each carries its originating code, which is constant per variant). -/
inductive ParaTextElement where
  | string (value : List Nat)
  | sectionColDef
  | fieldStart
  | fieldEnd
  | titleMark
  | tab
  | lineBreak
  | gsoTable
  | paraBreak
  | hiddenComment
  | headerFooter
  | footnoteEndnote
  | autoNumber
  | pageControl
  | bookmarkIndex
  | addTextOverlap
  | hyphen
  | bundleSpace
  | fixedSpace
deriving Repr, DecidableEq

/-- The `flushString` closure of `decodeParaTextElements`: emit the
pending literal run as a `ParaTextString` element if it is non-empty. -/
def flushString (buffer : List Nat) : List ParaTextElement :=
  if buffer = [] then [] else [.string buffer]

/-- The loop of `paraTextDecoder.decodeParaTextElements`: read 16-bit
little-endian code units until the payload is exhausted (a trailing odd
byte fails `binary.Read` and stops the loop, like end of payload).
Units at or above 32 accumulate into the pending literal run; units
below 32 flush the run and dispatch on the code exactly as the Go
`switch` does, with `skipBytes(14)` rendered as `rest.drop 14` (over-long
skips at the end of the payload consume what is left, after which the
next read fails — identical to dropping on lists).  The wildcard arm is
the implicit empty default of the Go switch (codes 0, 1, 25-29 and the
unreachable values at or above 32). -/
def decodeParaTextLoop (bytes buffer : List Nat) : List ParaTextElement :=
  match bytes with
  | b0 :: b1 :: rest =>
    let code := uint16LE b0 b1
    if 32 ≤ code then
      decodeParaTextLoop rest (buffer ++ [code])
    else
      flushString buffer ++
        match code with
        | 2 => .sectionColDef :: decodeParaTextLoop (rest.drop 14) []
        | 3 => .fieldStart :: decodeParaTextLoop (rest.drop 14) []
        | 4 => .fieldEnd :: decodeParaTextLoop (rest.drop 14) []
        | 5 | 6 | 7 => decodeParaTextLoop (rest.drop 14) []
        | 8 => .titleMark :: decodeParaTextLoop (rest.drop 14) []
        | 9 => .tab :: decodeParaTextLoop (rest.drop 14) []
        | 10 => .lineBreak :: decodeParaTextLoop rest []
        | 11 => .gsoTable :: decodeParaTextLoop (rest.drop 14) []
        | 12 => decodeParaTextLoop (rest.drop 14) []
        | 13 => .paraBreak :: decodeParaTextLoop rest []
        | 14 => decodeParaTextLoop (rest.drop 14) []
        | 15 => .hiddenComment :: decodeParaTextLoop (rest.drop 14) []
        | 16 => .headerFooter :: decodeParaTextLoop (rest.drop 14) []
        | 17 => .footnoteEndnote :: decodeParaTextLoop (rest.drop 14) []
        | 18 => .autoNumber :: decodeParaTextLoop (rest.drop 14) []
        | 19 | 20 => decodeParaTextLoop (rest.drop 14) []
        | 21 => .pageControl :: decodeParaTextLoop (rest.drop 14) []
        | 22 => .bookmarkIndex :: decodeParaTextLoop (rest.drop 14) []
        | 23 => .addTextOverlap :: decodeParaTextLoop (rest.drop 14) []
        | 24 => .hyphen :: decodeParaTextLoop rest []
        | 30 => .bundleSpace :: decodeParaTextLoop rest []
        | 31 => .fixedSpace :: decodeParaTextLoop rest []
        | _ => decodeParaTextLoop rest []
  | _ => flushString buffer
termination_by bytes.length
decreasing_by all_goals simp [List.length_drop] <;> omega

/-- Decoding a whole paragraph-text record payload
(`decodeParaTextElements` with the final `flushString` folded into the
loop base case). -/
def decodeParaTextElements (data : List Nat) : List ParaTextElement :=
  decodeParaTextLoop data []

/-- The control codes whose dispatch consumes a 14-byte inline
parameter block (`skipBytes(14)` in the source). -/
def skip14Codes : List Nat :=
  [2, 3, 4, 5, 6, 7, 8, 9, 11, 12, 14, 19, 20, 21, 22, 23, 15, 16, 17, 18]

/-- The unusable/reserved control codes for which the decoder emits no
typed marker at all (it only flushes the pending run, and for some of
them skips the parameter block). -/
def silentCodes : List Nat :=
  [0, 1, 5, 6, 7, 12, 14, 19, 20, 25, 26, 27, 28, 29]

/-- The typed marker emitted for each non-silent control code below 32
(unused fallback for silent codes). -/
def markerFor : Nat → ParaTextElement
  | 2 => .sectionColDef
  | 3 => .fieldStart
  | 4 => .fieldEnd
  | 8 => .titleMark
  | 9 => .tab
  | 10 => .lineBreak
  | 11 => .gsoTable
  | 13 => .paraBreak
  | 15 => .hiddenComment
  | 16 => .headerFooter
  | 17 => .footnoteEndnote
  | 18 => .autoNumber
  | 21 => .pageControl
  | 22 => .bookmarkIndex
  | 23 => .addTextOverlap
  | 24 => .hyphen
  | 30 => .bundleSpace
  | 31 => .fixedSpace
  | _ => .string []

/-- The amended claim C5 as a decoder, in the words of the corrected
spec sentence: units at or above 32 accumulate into a pending run;
units below 32 flush the run, consume the 14-byte parameter block when
the code is in `skip14Codes`, and emit the typed marker for the code
unless the code is unusable/reserved (`silentCodes`). -/
def specParaLoop (bytes buffer : List Nat) : List ParaTextElement :=
  match bytes with
  | b0 :: b1 :: rest =>
    let code := uint16LE b0 b1
    if 32 ≤ code then
      specParaLoop rest (buffer ++ [code])
    else
      let nextBytes := if code ∈ skip14Codes then rest.drop 14 else rest
      flushString buffer ++
        (if code ∈ silentCodes then [] else [markerFor code]) ++
        specParaLoop nextBytes []
  | _ => flushString buffer
termination_by bytes.length
decreasing_by
  all_goals try split
  all_goals simp [List.length_drop]
  all_goals omega

/-- Amended-claim decoding of a whole payload. -/
def specDecodeParaText (data : List Nat) : List ParaTextElement :=
  specParaLoop data []

/-- Counterexample to C5 as stated: the payload consisting of the single
code unit 0 (a value below 32) decodes to no elements at all — the
decoder emits no typed control marker for the unusable code 0 (nor for
the reserved codes), contradicting "every unit with value below 32 …
emits a typed control marker for that code". -/
theorem paraText_claim_counterexample :
    decodeParaTextElements [0, 0] = [] ∧
    decodeParaTextElements [65, 0, 0, 0] = [.string [65]] := by
  constructor
  · simp [decodeParaTextElements, decodeParaTextLoop, uint16LE, flushString]
  · simp [decodeParaTextElements, decodeParaTextLoop, uint16LE, flushString]

/-- C5 (amended): the paragraph-text decoder behaves exactly as the
corrected sentence describes — units at or above 32 accumulate into the
pending literal run, units below 32 flush the run (emitting it as a
literal-run element if non-empty), consume a fixed 14-byte inline
parameter block exactly for the codes in `skip14Codes`, and emit a typed
marker for the code except for the unusable/reserved codes in
`silentCodes`, which emit nothing. -/
theorem paraText_decode_spec (data : List Nat) :
    decodeParaTextElements data = specDecodeParaText data := by
  suffices h : ∀ n (bytes buffer : List Nat), bytes.length ≤ n →
      decodeParaTextLoop bytes buffer = specParaLoop bytes buffer by
    exact h data.length data [] le_rfl
  intro n
  induction n with
  | zero =>
    intro bytes buffer h
    have hb : bytes = [] := List.eq_nil_of_length_eq_zero (by omega)
    subst hb
    simp [decodeParaTextLoop, specParaLoop]
  | succ n ih =>
    intro bytes buffer h
    match bytes with
    | [] => simp [decodeParaTextLoop, specParaLoop]
    | [b] => simp [decodeParaTextLoop, specParaLoop]
    | b0 :: b1 :: rest =>
      rw [decodeParaTextLoop, specParaLoop]
      have hlen : rest.length ≤ n := by
        simp only [List.length_cons] at h
        omega
      have hdrop : (rest.drop 14).length ≤ n := by
        rw [List.length_drop]
        omega
      simp only []
      by_cases h32 : 32 ≤ uint16LE b0 b1
      · rw [if_pos h32, if_pos h32, ih rest _ hlen]
      · rw [if_neg h32, if_neg h32]
        have hc : uint16LE b0 b1 < 32 := by omega
        generalize hcode : uint16LE b0 b1 = code at hc
        have e1 := ih rest [] hlen
        have e2 := ih (rest.drop 14) [] hdrop
        interval_cases code <;>
          simp [skip14Codes, silentCodes, markerFor, e1, e2]

/-- Witness for C6: a 33-byte payload `[0, 1, ..., 32]` is flagged as a
cell with column index 8, row index 10, and spans 12 and 14. -/
theorem listHeader_cell_iff_witness :
    (decodeListHeaderRecord (List.range 33)).isCell = true ∧
    (decodeListHeaderRecord (List.range 33)).colIndex = 8 ∧
    (decodeListHeaderRecord (List.range 33)).rowIndex = 10 ∧
    (decodeListHeaderRecord (List.range 33)).colSpan = 12 ∧
    (decodeListHeaderRecord (List.range 33)).rowSpan = 14 := by
  have h := listHeader_cell_iff (List.range 33)
  have hlen : 33 ≤ (List.range 33).length := by simp
  obtain ⟨hc1, hc2, hc3, hc4, _, _⟩ := h.2.2 hlen
  exact ⟨h.1.mpr hlen, by rw [hc1]; decide, by rw [hc2]; decide,
    by rw [hc3]; decide, by rw [hc4]; decide⟩

/-! ### Streaming block decryption: `cryptoReader` (crypto.go:18-44)

The reader buffers one decrypted 16-byte block and serves bytes from
it; draining it to exhaustion therefore yields the concatenation of the
block-by-block decryptions.  `decrypt` stands for the
`cipher.Block.Decrypt` call on one 16-byte block (the cipher itself —
AES-128 — is an external collaborator, so it is a parameter here, as
`cryptoReader` works for any `cipher.Block`). -/

/-- Reading the underlying stream through `cryptoReader.Read` until
end-of-stream: end-of-stream exactly at a block boundary (`io.EOF` with
zero bytes read) succeeds; a short final block (`io.ErrUnexpectedEOF`
from `io.ReadFull`) is the malformed-container error of crypto.go:34;
otherwise one 16-byte block is decrypted and serving continues. -/
def decryptStream (decrypt : List Nat → List Nat) (s : List Nat) :
    Except String (List Nat) :=
  if s.length = 0 then .ok []
  else if s.length < 16 then .error "encrypted stream not aligned to block size"
  else
    match decryptStream decrypt (s.drop 16) with
    | .ok rest => .ok (decrypt (s.take 16) ++ rest)
    | .error e => .error e
termination_by s.length
decreasing_by simp [List.length_drop] <;> omega

/-- Electronic-codebook block-by-block application of a 16-byte block
transformation to a whole stream (the reference value for claim C4, and
the encryptor when applied to a block-cipher encryption function). -/
def ecbChunks (f : List Nat → List Nat) (s : List Nat) : List Nat :=
  if s.length = 0 then []
  else f (s.take 16) ++ ecbChunks f (s.drop 16)
termination_by s.length
decreasing_by simp [List.length_drop] <;> omega

theorem decryptStream_aligned (decrypt : List Nat → List Nat)
    (s : List Nat) (h : s.length % 16 = 0) :
    decryptStream decrypt s = .ok (ecbChunks decrypt s) := by
  suffices hs : ∀ n (s : List Nat), s.length ≤ n → s.length % 16 = 0 →
      decryptStream decrypt s = .ok (ecbChunks decrypt s) by
    exact hs s.length s le_rfl h
  intro n
  induction n with
  | zero =>
    intro s hn h0
    have : s.length = 0 := by omega
    rw [decryptStream, ecbChunks]
    simp [this]
  | succ n ih =>
    intro s hn h0
    rw [decryptStream, ecbChunks]
    by_cases hz : s.length = 0
    · simp [hz]
    · have h16 : ¬ s.length < 16 := by omega
      rw [if_neg hz, if_neg hz, if_neg h16]
      rw [ih (s.drop 16) (by simp [List.length_drop]; omega)
        (by simp [List.length_drop]; omega)]

theorem decryptStream_misaligned (decrypt : List Nat → List Nat)
    (s : List Nat) (h : s.length % 16 ≠ 0) :
    decryptStream decrypt s =
      .error "encrypted stream not aligned to block size" := by
  suffices hs : ∀ n (s : List Nat), s.length ≤ n → s.length % 16 ≠ 0 →
      decryptStream decrypt s =
        .error "encrypted stream not aligned to block size" by
    exact hs s.length s le_rfl h
  intro n
  induction n with
  | zero =>
    intro s hn h0
    omega
  | succ n ih =>
    intro s hn h0
    rw [decryptStream]
    have hz : ¬ s.length = 0 := by omega
    rw [if_neg hz]
    by_cases h16 : s.length < 16
    · rw [if_pos h16]
    · rw [if_neg h16]
      rw [ih (s.drop 16) (by simp [List.length_drop]; omega)
        (by simp [List.length_drop]; omega)]

theorem decryptStream_roundtrip (decrypt encrypt : List Nat → List Nat)
    (hlen : ∀ b : List Nat, b.length = 16 → (encrypt b).length = 16)
    (hinv : ∀ b : List Nat, b.length = 16 → decrypt (encrypt b) = b)
    (p : List Nat) (hp : p.length % 16 = 0) :
    decryptStream decrypt (ecbChunks encrypt p) = .ok p := by
  suffices hs : ∀ n (p : List Nat), p.length ≤ n → p.length % 16 = 0 →
      decryptStream decrypt (ecbChunks encrypt p) = .ok p by
    exact hs p.length p le_rfl hp
  intro n
  induction n with
  | zero =>
    intro p hn h0
    have hz : p.length = 0 := by omega
    rw [ecbChunks, if_pos hz, decryptStream]
    simp [List.eq_nil_of_length_eq_zero hz]
  | succ n ih =>
    intro p hn h0
    by_cases hz : p.length = 0
    · rw [ecbChunks, if_pos hz, decryptStream]
      simp [List.eq_nil_of_length_eq_zero hz]
    · have h16 : 16 ≤ p.length := by omega
      rw [ecbChunks, if_neg hz]
      have htl : (p.take 16).length = 16 := by
        simp [List.length_take]
        omega
      have hel : (encrypt (p.take 16)).length = 16 := hlen _ htl
      rw [decryptStream]
      rw [if_neg (by simp only [List.length_append, hel]; omega)]
      rw [if_neg (by simp only [List.length_append, hel]; omega)]
      have htake : (encrypt (p.take 16) ++ ecbChunks encrypt (p.drop 16)).take 16
          = encrypt (p.take 16) := by
        rw [List.take_append_eq_append_take, hel,
          List.take_of_length_le (le_of_eq hel)]
        simp
      have hdrop : (encrypt (p.take 16) ++ ecbChunks encrypt (p.drop 16)).drop 16
          = ecbChunks encrypt (p.drop 16) := by
        rw [List.drop_append_eq_append_drop, hel,
          List.drop_eq_nil_of_le (le_of_eq hel)]
        simp
      rw [htake, hdrop]
      rw [ih (p.drop 16) (by simp [List.length_drop]; omega)
        (by simp [List.length_drop]; omega)]
      rw [hinv _ htl]
      dsimp only
      rw [List.take_append_drop]

/-- C4: draining the streaming block decryptor.  A stream whose length
is an exact multiple of 16 decrypts to the ECB block-by-block
decryption of the whole stream with a clean end of stream (and
decrypting what the same cipher encrypted reproduces the plaintext
byte-for-byte); a stream with a short final block fails with the
malformed-container error instead of returning data for that block. -/
theorem cryptoReader_read_blocks (decrypt : List Nat → List Nat)
    (s : List Nat) :
    (s.length % 16 = 0 →
      decryptStream decrypt s = .ok (ecbChunks decrypt s)) ∧
    (s.length % 16 ≠ 0 →
      decryptStream decrypt s =
        .error "encrypted stream not aligned to block size") ∧
    (∀ encrypt p, (∀ b : List Nat, b.length = 16 → (encrypt b).length = 16) →
      (∀ b : List Nat, b.length = 16 → decrypt (encrypt b) = b) →
      p.length % 16 = 0 →
      decryptStream decrypt (ecbChunks encrypt p) = .ok p) :=
  ⟨decryptStream_aligned decrypt s,
   decryptStream_misaligned decrypt s,
   fun encrypt p hlen hinv hp =>
     decryptStream_roundtrip decrypt encrypt hlen hinv p hp⟩

/-- Witness for C4: the identity block cipher on a 32-byte stream, a
17-byte misaligned stream, and a 16-byte plaintext round-trip. -/
theorem cryptoReader_read_blocks_witness :
    decryptStream (fun b => b) (List.replicate 32 0) =
      .ok (ecbChunks (fun b => b) (List.replicate 32 0)) ∧
    decryptStream (fun b => b) (List.replicate 17 0) =
      .error "encrypted stream not aligned to block size" ∧
    decryptStream (fun b => b)
        (ecbChunks (fun b => b) (List.replicate 16 1)) =
      .ok (List.replicate 16 1) :=
  ⟨(cryptoReader_read_blocks (fun b => b) (List.replicate 32 0)).1
      (by simp),
   (cryptoReader_read_blocks (fun b => b) (List.replicate 17 0)).2.1
      (by simp),
   (cryptoReader_read_blocks (fun b => b) []).2.2 (fun b => b)
      (List.replicate 16 1) (fun b hb => hb) (fun b hb => rfl)
      (by simp)⟩

end HwpV5

namespace Render

/-! ### Table layout and rendering: `internal/render/table.go`

Strings are embedded as lists of rune code points.  The per-rune
display width (`go-runewidth`, an external library) is a parameter
`w : Nat → Nat` threaded through every definition that the source
computes via `runewidth.StringWidth`. -/

/-- A table cell (table.go:9-15). -/
structure Cell where
  row : Nat
  col : Nat
  text : List Nat
  rowSpan : Nat
  colSpan : Nat
deriving Repr, DecidableEq

/-- A table (table.go:17-21); cell identity (the Go `*Cell` pointers)
is the index into the `cells` list, per the grid-ownership design note
of the spec. -/
structure Table where
  rows : Nat
  cols : Nat
  cells : List Cell
deriving Repr, DecidableEq

/-- The `displayWidth` function (table.go:299-301):
`runewidth.StringWidth`, the sum of the per-rune widths. -/
def displayWidth (w : Nat → Nat) (s : List Nat) : Nat :=
  (s.map w).sum

/-- The Go `strings.Split(text, "\n")` on rune lists (table.go:62). -/
def splitLines (s : List Nat) : List (List Nat) :=
  match s with
  | [] => [[]]
  | c :: rest =>
    if c = 10 then [] :: splitLines rest
    else
      match splitLines rest with
      | [] => [[c]]
      | l :: ls => (c :: l) :: ls

/-- The loop building the ownership grid (table.go:53-59), walking the
cell list in order with its index `i`; a later cell overwrites an
earlier owner of the same position. -/
def cellOwnerGo (t : Table) (r c : Nat) :
    List Cell → Nat → Option Nat → Option Nat
  | [], _, acc => acc
  | cell :: cs, i, acc =>
    cellOwnerGo t r c cs (i + 1)
      (if cell.row ≤ r ∧ r < cell.row + cell.rowSpan ∧ r < t.rows ∧
          cell.col ≤ c ∧ c < cell.col + cell.colSpan ∧ c < t.cols
       then some i else acc)

/-- The ownership grid `cellOwner` (table.go:53-59): every grid
position within a cell's span and within the table bounds is owned by
that cell.  Cell identity is the index into the cell list (the Go code
stores `*Cell` pointers). -/
def cellOwner (t : Table) (r c : Nat) : Option Nat :=
  cellOwnerGo t r c t.cells 0 none

/-- Maximum display width over a cell's text lines (the `maxWidth`
loops of `computeColWidths`, table.go:80-87 and 98-104). -/
def cellMaxWidth (w : Nat → Nat) (cell : Cell) : Nat :=
  (splitLines cell.text).foldl
    (fun m line => if displayWidth w line > m then displayWidth w line else m) 0

/-- First pass of `computeColWidths` (table.go:77-92): every span-1
cell raises its column's width to its maximum line width. -/
def setSingleColWidths (w : Nat → Nat) (cells : List Cell)
    (ws : List Nat) : List Nat :=
  cells.foldl
    (fun ws cell =>
      if cell.colSpan = 1 then
        if cellMaxWidth w cell > ws.getD cell.col 0 then
          ws.set cell.col (cellMaxWidth w cell)
        else ws
      else ws)
    ws

/-- The `totalWidth` accumulation loop (table.go:106-109): sum of the
widths of the `span` columns starting at `col`. -/
def spannedSum (ws : List Nat) (col : Nat) : Nat → Nat
  | 0 => 0
  | n + 1 => spannedSum ws col n + ws.getD (col + n) 0

/-- The distribution loop of `computeColWidths` (table.go:116-121):
starting at loop counter `c`, add `perCol` to each spanned column and
one more to the leftmost `rem` of them. -/
def distributeLoop (ws : List Nat) (col perCol rem span c : Nat) : List Nat :=
  if c < span then
    distributeLoop
      (ws.set (col + c)
        (ws.getD (col + c) 0 + perCol + (if c < rem then 1 else 0)))
      col perCol rem span (c + 1)
  else ws
termination_by span - c

/-- One step of the second pass of `computeColWidths` (table.go:95-124):
a cell spanning more than one column whose required width exceeds the
current sum of its spanned columns distributes the shortfall `extra` as
`extra / span` per column plus one to the leftmost `extra % span`. -/
def distributeCell (w : Nat → Nat) (ws : List Nat) (cell : Cell) : List Nat :=
  if 1 < cell.colSpan then
    let maxW := cellMaxWidth w cell
    let totalWidth := spannedSum ws cell.col cell.colSpan
    if maxW > totalWidth then
      distributeLoop ws cell.col ((maxW - totalWidth) / cell.colSpan)
        ((maxW - totalWidth) % cell.colSpan) cell.colSpan 0
    else ws
  else ws

/-- The whole of `computeColWidths` (table.go:72-125): initialize every
column to width 1, run the span-1 pass, then the distribution pass. -/
def computeColWidths (w : Nat → Nat) (t : Table) : List Nat :=
  t.cells.foldl (distributeCell w)
    (setSingleColWidths w t.cells (List.replicate t.cols 1))

theorem getD_set_eq (l : List Nat) (i a : Nat) (h : i < l.length) :
    (l.set i a).getD i 0 = a := by
  rw [List.getD_eq_getElem?_getD, List.getElem?_set_eq h]
  rfl

theorem getD_set_ne (l : List Nat) (i j a : Nat) (h : i ≠ j) :
    (l.set i a).getD j 0 = l.getD j 0 := by
  rw [List.getD_eq_getElem?_getD, List.getElem?_set_ne h,
    ← List.getD_eq_getElem?_getD]

theorem distributeLoop_length (ws : List Nat) (col perCol rem span c : Nat) :
    (distributeLoop ws col perCol rem span c).length = ws.length := by
  have H : ∀ k (ws : List Nat) c, span - c ≤ k →
      (distributeLoop ws col perCol rem span c).length = ws.length := by
    intro k
    induction k with
    | zero =>
      intro ws c hk
      rw [distributeLoop, if_neg (by omega)]
    | succ k ih =>
      intro ws c hk
      rw [distributeLoop]
      split
      · rw [ih _ (c + 1) (by omega), List.length_set]
      · rfl
  exact H (span - c) ws c le_rfl

theorem distributeLoop_getD_out (ws : List Nat) (col perCol rem span c i : Nat)
    (h : i < col + c ∨ col + span ≤ i) :
    (distributeLoop ws col perCol rem span c).getD i 0 = ws.getD i 0 := by
  have H : ∀ k (ws : List Nat) c, span - c ≤ k →
      (i < col + c ∨ col + span ≤ i) →
      (distributeLoop ws col perCol rem span c).getD i 0 = ws.getD i 0 := by
    intro k
    induction k with
    | zero =>
      intro ws c hk hi
      rw [distributeLoop, if_neg (by omega)]
    | succ k ih =>
      intro ws c hk hi
      rw [distributeLoop]
      split
      · rw [ih _ (c + 1) (by omega) (by omega),
          getD_set_ne _ _ _ _ (by omega)]
      · rfl
  exact H (span - c) ws c le_rfl h

theorem distributeLoop_getD_in (ws : List Nat) (col perCol rem span c j : Nat)
    (hc : c ≤ j) (hj : j < span) (hb : col + span ≤ ws.length) :
    (distributeLoop ws col perCol rem span c).getD (col + j) 0 =
      ws.getD (col + j) 0 + perCol + (if j < rem then 1 else 0) := by
  have H : ∀ k (ws : List Nat) c, span - c ≤ k → c ≤ j →
      col + span ≤ ws.length →
      (distributeLoop ws col perCol rem span c).getD (col + j) 0 =
        ws.getD (col + j) 0 + perCol + (if j < rem then 1 else 0) := by
    intro k
    induction k with
    | zero =>
      intro ws c hk hcj hb2
      omega
    | succ k ih =>
      intro ws c hk hcj hb2
      rw [distributeLoop, if_pos (by omega)]
      by_cases hcj2 : j = c
      · subst hcj2
        rw [distributeLoop_getD_out _ _ _ _ _ _ _ (by omega)]
        exact getD_set_eq _ _ _ (by omega)
      · rw [ih _ (c + 1) (by omega) (by omega)
          (by rw [List.length_set]; exact hb2)]
        rw [getD_set_ne _ _ _ _ (by omega)]
  exact H (span - c) ws c le_rfl hc hb

theorem distributeLoop_spannedSum (ws : List Nat) (col perCol rem span : Nat)
    (hb : col + span ≤ ws.length) (n : Nat) (hn : n ≤ span) :
    spannedSum (distributeLoop ws col perCol rem span 0) col n =
      spannedSum ws col n + n * perCol + min rem n := by
  induction n with
  | zero => simp [spannedSum]
  | succ n ih =>
    rw [spannedSum, spannedSum, ih (by omega)]
    rw [distributeLoop_getD_in ws col perCol rem span 0 n (Nat.zero_le n)
      (by omega) hb]
    have hm : min rem (n + 1) = min rem n + (if n < rem then 1 else 0) := by
      split <;> omega
    rw [hm]
    ring

/-- C7: the shortfall distribution of `computeColWidths`.  When a cell
spans more than one column and its required width (`cellMaxWidth`,
the maximum display width of its lines) exceeds the current sum of its
spanned columns, `distributeCell` — the step `computeColWidths` folds
over all multi-column cells — adds `extra / span` to every spanned
column and one extra unit to each of the leftmost `extra % span`
columns, leaves all other columns unchanged, and makes the spanned
columns sum to exactly the required width; in particular for a
span-2 cell the two columns afterwards sum to the required width with
the odd remainder on the leftmost. -/
theorem distributeCell_shortfall (w : Nat → Nat) (ws : List Nat) (cell : Cell)
    (hspan : 1 < cell.colSpan) (hb : cell.col + cell.colSpan ≤ ws.length)
    (hneed : spannedSum ws cell.col cell.colSpan < cellMaxWidth w cell) :
    (∀ c < cell.colSpan,
      (distributeCell w ws cell).getD (cell.col + c) 0 =
        ws.getD (cell.col + c) 0 +
          (cellMaxWidth w cell - spannedSum ws cell.col cell.colSpan) /
            cell.colSpan +
          (if c < (cellMaxWidth w cell - spannedSum ws cell.col cell.colSpan) %
              cell.colSpan then 1 else 0)) ∧
    (∀ i, i < cell.col ∨ cell.col + cell.colSpan ≤ i →
      (distributeCell w ws cell).getD i 0 = ws.getD i 0) ∧
    spannedSum (distributeCell w ws cell) cell.col cell.colSpan =
      cellMaxWidth w cell ∧
    (cell.colSpan = 2 →
      (distributeCell w ws cell).getD cell.col 0 +
          (distributeCell w ws cell).getD (cell.col + 1) 0 =
        cellMaxWidth w cell ∧
      (distributeCell w ws cell).getD cell.col 0 =
        ws.getD cell.col 0 +
          (cellMaxWidth w cell - spannedSum ws cell.col 2) / 2 +
          (cellMaxWidth w cell - spannedSum ws cell.col 2) % 2) := by
  have hre : (distributeCell w ws cell) =
      distributeLoop ws cell.col
        ((cellMaxWidth w cell - spannedSum ws cell.col cell.colSpan) /
          cell.colSpan)
        ((cellMaxWidth w cell - spannedSum ws cell.col cell.colSpan) %
          cell.colSpan) cell.colSpan 0 := by
    rw [distributeCell, if_pos hspan, if_pos hneed]
  have hsum : spannedSum (distributeCell w ws cell) cell.col cell.colSpan =
      cellMaxWidth w cell := by
    rw [hre, distributeLoop_spannedSum ws cell.col _ _ cell.colSpan hb
      cell.colSpan le_rfl]
    have hdm := Nat.div_add_mod
      (cellMaxWidth w cell - spannedSum ws cell.col cell.colSpan) cell.colSpan
    have hmod : (cellMaxWidth w cell - spannedSum ws cell.col cell.colSpan) %
        cell.colSpan < cell.colSpan := Nat.mod_lt _ (by omega)
    have hmin : min ((cellMaxWidth w cell -
        spannedSum ws cell.col cell.colSpan) % cell.colSpan) cell.colSpan =
        (cellMaxWidth w cell - spannedSum ws cell.col cell.colSpan) %
          cell.colSpan := by omega
    rw [hmin]
    omega
  refine ⟨fun c hc => ?_, fun i hi => ?_, hsum, fun h2 => ?_⟩
  · rw [hre]
    exact distributeLoop_getD_in ws cell.col _ _ cell.colSpan 0 c
      (Nat.zero_le c) hc hb
  · rw [hre]
    exact distributeLoop_getD_out ws cell.col _ _ cell.colSpan 0 i (by omega)
  · have hexp : spannedSum (distributeCell w ws cell) cell.col 2 =
        (distributeCell w ws cell).getD cell.col 0 +
          (distributeCell w ws cell).getD (cell.col + 1) 0 := by
      simp [spannedSum]
    have hs2 := hsum
    rw [h2] at hs2
    constructor
    · omega
    · have hg := distributeLoop_getD_in ws cell.col
        ((cellMaxWidth w cell - spannedSum ws cell.col cell.colSpan) /
          cell.colSpan)
        ((cellMaxWidth w cell - spannedSum ws cell.col cell.colSpan) %
          cell.colSpan) cell.colSpan 0 0 (Nat.zero_le 0) (by omega) hb
      rw [Nat.add_zero] at hg
      rw [hre, hg, h2]
      have hm2 : (cellMaxWidth w cell - spannedSum ws cell.col 2) % 2 < 2 :=
        Nat.mod_lt _ (by norm_num)
      split
      · omega
      · omega

/-- Witness for C7: a span-2 cell of required width 5 over columns of
widths 1 and 1 (shortfall 3 → 2 to the left column, 1 to the right). -/
theorem distributeCell_shortfall_witness :
    (distributeCell (fun _ => 5) [1, 1] ⟨0, 0, [65], 1, 2⟩).getD 0 0 +
        (distributeCell (fun _ => 5) [1, 1] ⟨0, 0, [65], 1, 2⟩).getD 1 0 =
      cellMaxWidth (fun _ => 5) ⟨0, 0, [65], 1, 2⟩ ∧
    spannedSum (distributeCell (fun _ => 5) [1, 1] ⟨0, 0, [65], 1, 2⟩) 0 2 =
      cellMaxWidth (fun _ => 5) ⟨0, 0, [65], 1, 2⟩ := by
  have h := distributeCell_shortfall (fun _ => 5) [1, 1] ⟨0, 0, [65], 1, 2⟩
    (by norm_num) (by norm_num)
    (by norm_num [spannedSum, cellMaxWidth, splitLines, displayWidth])
  obtain ⟨hc, _, hs, h2⟩ := h
  have h2c := h2 rfl
  exact ⟨by simpa using h2c.1, hs⟩

end Render

namespace HwpV5

/-! ### Document assembly: `ContentScanner` (content_scanner.go)

The record stream is a list of already-decoded records (section
advancement is transparent, so the concatenation of all sections is one
stream); the one-record lookahead buffer is represented by pushing the
record back onto the front of the stream, which is exactly how
`putBack`/`nextRecord` treat it. -/

/-- A document cell (internal/document/types.go); text is the list of
rune code points. -/
structure DocCell where
  row : Nat
  col : Nat
  rowSpan : Nat
  colSpan : Nat
  text : List Nat
deriving Repr, DecidableEq

/-- A document table (internal/document/types.go). -/
structure DocTable where
  rows : Nat
  cols : Nat
  cells : List DocCell
deriving Repr, DecidableEq

/-- A content node (internal/document/types.go): paragraph, table, or
image placeholder. -/
inductive ContentNode where
  | paragraph (text : List Nat)
  | table (t : DocTable)
  | image
deriving Repr, DecidableEq

/-- The decoded records `ContentScanner.Next` dispatches on
(content_scanner.go:103-192), carrying exactly the fields the state
machine reads; record kinds whose content it ignores are `other`. -/
inductive Rec where
  | paraHeader (level : Nat)
  | paraText (level : Nat) (els : List ParaTextElement)
  | paraCharShape (level : Nat)
  | paraLineSeg (level : Nat)
  | ctrlHeader (level : Nat) (ctrlID : Nat)
  | table (level : Nat) (rowCount colCount : Nat)
  | listHeader (level : Nat) (isCell : Bool)
      (rowIndex colIndex rowSpan colSpan : Nat)
  | other (tag level : Nat)
deriving Repr, DecidableEq

/-- The record's level (`Rec.Lvl()`). -/
def Rec.lvl : Rec → Nat
  | .paraHeader l => l
  | .paraText l _ => l
  | .paraCharShape l => l
  | .paraLineSeg l => l
  | .ctrlHeader l _ => l
  | .table l _ _ => l
  | .listHeader l _ _ _ _ _ => l
  | .other _ l => l

/-- The in-progress table builder (content_scanner.go:32-38);
`currentCell` is the index of the active cell in `cells` (the Go code
keeps a pointer into the slice — index identity, per the design
notes). -/
structure TableBuilder where
  rows : Nat
  cols : Nat
  cells : List DocCell
  currentCell : Option Nat
  tableLevel : Nat
deriving Repr, DecidableEq

/-- The mutable state of `ContentScanner` (content_scanner.go:12-26):
the unread record stream (with any pushed-back record at its front),
the in-progress paragraph builder (its accumulated `textParts`), the
in-progress table builder, and the level at which the last table
control started. -/
structure ScanState where
  recs : List Rec
  currentPara : Option (List (List Nat))
  currentTable : Option TableBuilder
  tableLevel : Nat
deriving Repr, DecidableEq

/-- The `joinTextParts` helper (content_scanner.go:266-279):
concatenation of the accumulated parts. -/
def joinTextParts (parts : List (List Nat)) : List Nat :=
  parts.foldl (fun acc p => acc ++ p) []

/-- The `finishTable` conversion (content_scanner.go:232-244) from the
builder to the immutable node (the callers clear `currentTable`). -/
def finishTable (tb : TableBuilder) : DocTable :=
  ⟨tb.rows, tb.cols, tb.cells⟩

/-- The `skipChildren` loop (content_scanner.go:247-263): drop records
whose level is strictly greater than `parentLevel`; the first record at
or below it is pushed back (left at the front); end of stream is
success. -/
def skipChildren (parentLevel : Nat) (recs : List Rec) : List Rec :=
  match recs with
  | [] => []
  | r :: rest =>
    if r.lvl ≤ parentLevel then r :: rest
    else skipChildren parentLevel rest

theorem skipChildren_length_le (parentLevel : Nat) (recs : List Rec) :
    (skipChildren parentLevel recs).length ≤ recs.length := by
  induction recs with
  | nil => simp [skipChildren]
  | cons r rest ih =>
    rw [skipChildren]
    split
    · exact le_rfl
    · simp only [List.length_cons]
      omega

/-- The RecParaText arm (content_scanner.go:110-123): literal runs,
line breaks and tabs append to the paragraph parts; every other element
is ignored. -/
def appendTextParts (parts : List (List Nat))
    (els : List ParaTextElement) : List (List Nat) :=
  els.foldl
    (fun parts el =>
      match el with
      | .string v => parts ++ [v]
      | .lineBreak => parts ++ [[10]]
      | .tab => parts ++ [[9]]
      | _ => parts)
    parts

/-- Appending flushed paragraph text to the active cell
(content_scanner.go:131-137): joined by a newline when the cell already
has text. -/
def appendCellText (cells : List DocCell) (i : Nat)
    (text : List Nat) : List DocCell :=
  match cells[i]? with
  | some cell =>
      cells.set i
        { cell with
          text := cell.text ++ (if cell.text = [] then [] else [10]) ++ text }
  | none => cells

/-- The outcome of one iteration of the `Next` loop: either a node is
returned to the caller or the loop continues in a new state. -/
inductive StepResult where
  | emit (node : ContentNode) (s : ScanState)
  | step (s : ScanState)
deriving Repr, DecidableEq

/-- The `switch` body of `ContentScanner.Next`
(content_scanner.go:103-192), for record `r` with remaining stream
`rest`. -/
def processRecSwitch (s : ScanState) (r : Rec) (rest : List Rec) :
    StepResult :=
  match r with
  | .paraHeader _ => .step { s with recs := rest, currentPara := some [] }
  | .paraText _ els =>
    match s.currentPara with
    | some parts =>
        .step
          { s with
              recs := rest,
              currentPara := some (appendTextParts parts els) }
    | none => .step { s with recs := rest }
  | .paraCharShape _ | .paraLineSeg _ =>
    match s.currentPara with
    | some parts =>
      match s.currentTable with
      | some tb =>
        match tb.currentCell with
        | some i =>
            .step
              { s with
                  recs := rest,
                  currentPara := none,
                  currentTable := some
                    { tb with
                        cells :=
                          appendCellText tb.cells i (joinTextParts parts) } }
        | none =>
            .emit (.paragraph (joinTextParts parts))
              { s with recs := rest, currentPara := none }
      | none =>
          .emit (.paragraph (joinTextParts parts))
            { s with recs := rest, currentPara := none }
    | none => .step { s with recs := rest }
  | .ctrlHeader lvl ctrlID =>
    if ctrlID = 0x74626c20 then
      .step { s with recs := rest, tableLevel := lvl }
    else if ctrlID = 0x67736f20 then
      .emit .image { s with recs := skipChildren lvl rest }
    else
      .step { s with recs := skipChildren lvl rest }
  | .table _ rowCount colCount =>
    match s.currentTable with
    | none =>
        .step
          { s with
              recs := rest,
              currentTable := some ⟨rowCount, colCount, [], none, s.tableLevel⟩ }
    | some _ => .step { s with recs := rest }
  | .listHeader _ isCell rowIndex colIndex rowSpan colSpan =>
    match s.currentTable with
    | some tb =>
      if isCell then
        .step
          { s with
              recs := rest,
              currentTable := some
                { tb with
                    rows := (if tb.rows < rowIndex + rowSpan
                      then rowIndex + rowSpan else tb.rows),
                    cols := (if tb.cols < colIndex + colSpan
                      then colIndex + colSpan else tb.cols),
                    cells :=
                      tb.cells ++ [⟨rowIndex, colIndex, rowSpan, colSpan, []⟩],
                    currentCell := some tb.cells.length } }
      else .step { s with recs := rest }
    | none => .step { s with recs := rest }
  | .other _ _ => .step { s with recs := rest }

/-- One iteration of the `Next` loop (content_scanner.go:82-194): the
table-finalization check (lines 94-101) runs before the switch and
pushes the record back when it fires. -/
def processRec (s : ScanState) (r : Rec) (rest : List Rec) : StepResult :=
  match s.currentTable with
  | some tb =>
    if r.lvl ≤ tb.tableLevel then
      .emit (.table (finishTable tb))
        { s with recs := r :: rest, currentTable := none }
    else processRecSwitch s r rest
  | none => processRecSwitch s r rest

theorem processRecSwitch_step_length (s : ScanState) (r : Rec)
    (rest : List Rec) (s' : ScanState)
    (h : processRecSwitch s r rest = .step s') :
    s'.recs.length ≤ rest.length := by
  unfold processRecSwitch at h
  cases r
  all_goals dsimp only at h
  all_goals try split at h
  all_goals try split at h
  all_goals try split at h
  all_goals
    first
    | exact StepResult.noConfusion h
    | (simp only [StepResult.step.injEq] at h
       subst h
       first
       | exact le_rfl
       | exact skipChildren_length_le _ _)

theorem processRec_step_length (s : ScanState) (r : Rec)
    (rest : List Rec) (s' : ScanState)
    (h : processRec s r rest = .step s') :
    s'.recs.length ≤ rest.length := by
  unfold processRec at h
  split at h
  · split at h
    · exact absurd h (by simp)
    · exact processRecSwitch_step_length s r rest s' h
  · exact processRecSwitch_step_length s r rest s' h

/-- The `Next` method (content_scanner.go:82-194): pop the next record
(end of stream emits any in-progress table exactly once, then end of
content), finalize the table when the level drops to or below its start
level (pushing the record back), otherwise run the switch and loop. -/
def next (s : ScanState) : Option (ContentNode × ScanState) :=
  match hr : s.recs with
  | [] =>
    match s.currentTable with
    | some tb => some (.table (finishTable tb), { s with currentTable := none })
    | none => none
  | r :: rest =>
    match hp : processRec s r rest with
    | .emit node s' => some (node, s')
    | .step s' => next s'
termination_by s.recs.length
decreasing_by
  have hl := processRec_step_length s r rest s' hp
  rw [hr]
  simp only [List.length_cons]
  omega

end HwpV5

namespace HwpV5

/-- C1: table termination in `ContentScanner.Next`.  While a table is
in progress: (a) if the next record's level is at or below the table's
start level, `next` returns the finalized `Table` node before that
record is processed and leaves the record at the front of the stream
(the pushback buffer) for the following call; (b) at end of stream,
`next` still returns the `Table` node exactly once — the state it
leaves behind has no in-progress table, and a further call at end of
stream returns end-of-content (`none`), never the table again. -/
theorem table_finalize (para : Option (List (List Nat)))
    (tb : TableBuilder) (tlvl : Nat) :
    (∀ (r : Rec) (rest : List Rec), r.lvl ≤ tb.tableLevel →
      next ⟨r :: rest, para, some tb, tlvl⟩ =
        some (.table (finishTable tb), ⟨r :: rest, para, none, tlvl⟩)) ∧
    next ⟨[], para, some tb, tlvl⟩ =
      some (.table (finishTable tb), ⟨[], para, none, tlvl⟩) ∧
    next ⟨[], para, none, tlvl⟩ = none := by
  refine ⟨fun r rest hl => ?_, ?_, ?_⟩
  · rw [next]
    dsimp only
    have hp : processRec ⟨r :: rest, para, some tb, tlvl⟩ r rest =
        .emit (.table (finishTable tb)) ⟨r :: rest, para, none, tlvl⟩ := by
      unfold processRec
      dsimp only
      rw [if_pos hl]
    rw [hp]
  · rw [next]
  · rw [next]

/-- Witness for C1: a concrete one-record stream whose record level (5)
equals the table's start level, and the end-of-stream case. -/
theorem table_finalize_witness :
    next ⟨[Rec.other 0 5], none, some ⟨3, 4, [], none, 5⟩, 0⟩ =
      some (.table ⟨3, 4, []⟩, ⟨[Rec.other 0 5], none, none, 0⟩) ∧
    next ⟨[], none, some ⟨3, 4, [], none, 5⟩, 0⟩ =
      some (.table ⟨3, 4, []⟩, ⟨[], none, none, 0⟩) ∧
    next ⟨[], none, none, 0⟩ = none := by
  have h := table_finalize none ⟨3, 4, [], none, 5⟩ 0
  exact ⟨h.1 (Rec.other 0 5) [] (by norm_num [Rec.lvl]), h.2.1, h.2.2⟩

/-- All cells of an emitted table lie within its bounds. -/
def TableInBounds (t : DocTable) : Prop :=
  ∀ cell ∈ t.cells,
    cell.row + cell.rowSpan ≤ t.rows ∧ cell.col + cell.colSpan ≤ t.cols

/-- All cells of an in-progress builder lie within its bounds. -/
def CellsInBounds (tb : TableBuilder) : Prop :=
  ∀ cell ∈ tb.cells,
    cell.row + cell.rowSpan ≤ tb.rows ∧ cell.col + cell.colSpan ≤ tb.cols

/-- The machine invariant: any in-progress table builder has in-bounds
cells. -/
def ScanInv (s : ScanState) : Prop :=
  ∀ tb, s.currentTable = some tb → CellsInBounds tb

theorem appendCellText_geometry (cells : List DocCell) (i : Nat)
    (text : List Nat) (cell : DocCell)
    (h : cell ∈ appendCellText cells i text) :
    ∃ c0 ∈ cells, cell.row = c0.row ∧ cell.col = c0.col ∧
      cell.rowSpan = c0.rowSpan ∧ cell.colSpan = c0.colSpan := by
  unfold appendCellText at h
  split at h
  case h_1 c0 hc0 =>
    rcases List.mem_or_eq_of_mem_set h with hm | he
    · exact ⟨cell, hm, rfl, rfl, rfl, rfl⟩
    · refine ⟨c0, ?_, ?_, ?_, ?_, ?_⟩
      · exact List.getElem?_mem hc0
      all_goals rw [he]
  case h_2 => exact ⟨cell, h, rfl, rfl, rfl, rfl⟩

theorem processRecSwitch_inv_step (s : ScanState) (r : Rec)
    (rest : List Rec) (hinv : ScanInv s) (s' : ScanState)
    (h : processRecSwitch s r rest = .step s') : ScanInv s' := by
  cases r with
  | paraHeader l =>
    simp only [processRecSwitch, StepResult.step.injEq] at h
    subst h
    exact fun tb htb => hinv tb htb
  | paraText l els =>
    rcases hpa : s.currentPara with _ | parts <;>
      simp only [processRecSwitch, hpa, StepResult.step.injEq] at h <;>
      subst h <;>
      exact fun tb htb => hinv tb htb
  | paraCharShape l =>
    rcases hpa : s.currentPara with _ | parts
    · simp only [processRecSwitch, hpa, StepResult.step.injEq] at h
      subst h
      exact fun tb htb => hinv tb htb
    · rcases hta : s.currentTable with _ | tb0
      · simp only [processRecSwitch, hpa, hta] at h
        exact StepResult.noConfusion h
      · rcases htc : tb0.currentCell with _ | i
        · simp only [processRecSwitch, hpa, hta, htc] at h
          exact StepResult.noConfusion h
        · simp only [processRecSwitch, hpa, hta, htc,
            StepResult.step.injEq] at h
          subst h
          intro tb htb
          simp only [Option.some.injEq] at htb
          subst htb
          intro cell hc
          obtain ⟨c0, hc0, h1, h2, h3, h4⟩ :=
            appendCellText_geometry tb0.cells i (joinTextParts parts) cell hc
          obtain ⟨hb1, hb2⟩ := hinv tb0 hta c0 hc0
          exact ⟨by rw [h1, h3]; exact hb1, by rw [h2, h4]; exact hb2⟩
  | paraLineSeg l =>
    rcases hpa : s.currentPara with _ | parts
    · simp only [processRecSwitch, hpa, StepResult.step.injEq] at h
      subst h
      exact fun tb htb => hinv tb htb
    · rcases hta : s.currentTable with _ | tb0
      · simp only [processRecSwitch, hpa, hta] at h
        exact StepResult.noConfusion h
      · rcases htc : tb0.currentCell with _ | i
        · simp only [processRecSwitch, hpa, hta, htc] at h
          exact StepResult.noConfusion h
        · simp only [processRecSwitch, hpa, hta, htc,
            StepResult.step.injEq] at h
          subst h
          intro tb htb
          simp only [Option.some.injEq] at htb
          subst htb
          intro cell hc
          obtain ⟨c0, hc0, h1, h2, h3, h4⟩ :=
            appendCellText_geometry tb0.cells i (joinTextParts parts) cell hc
          obtain ⟨hb1, hb2⟩ := hinv tb0 hta c0 hc0
          exact ⟨by rw [h1, h3]; exact hb1, by rw [h2, h4]; exact hb2⟩
  | ctrlHeader l cid =>
    by_cases h1 : cid = 0x74626c20
    · simp only [processRecSwitch, if_pos h1, StepResult.step.injEq] at h
      subst h
      exact fun tb htb => hinv tb htb
    · by_cases h2 : cid = 0x67736f20
      · simp only [processRecSwitch, if_neg h1, if_pos h2] at h
        exact StepResult.noConfusion h
      · simp only [processRecSwitch, if_neg h1, if_neg h2,
          StepResult.step.injEq] at h
        subst h
        exact fun tb htb => hinv tb htb
  | table l rc cc =>
    rcases hta : s.currentTable with _ | tb0
    · simp only [processRecSwitch, hta, StepResult.step.injEq] at h
      subst h
      intro tb htb
      simp only [Option.some.injEq] at htb
      subst htb
      intro cell hc
      simp at hc
    · simp only [processRecSwitch, hta, StepResult.step.injEq] at h
      subst h
      exact fun tb htb => hinv tb (by rw [hta]; exact htb)
  | listHeader l isc ri ci rs cs =>
    rcases hta : s.currentTable with _ | tb0
    · simp only [processRecSwitch, hta, StepResult.step.injEq] at h
      subst h
      exact fun tb htb => hinv tb (by rw [hta]; exact htb)
    · cases isc with
      | false =>
        simp only [processRecSwitch, hta, Bool.false_eq_true, if_neg,
          StepResult.step.injEq, reduceIte] at h
        subst h
        exact fun tb htb => hinv tb (by rw [hta]; exact htb)
      | true =>
        simp only [processRecSwitch, hta, reduceIte,
          StepResult.step.injEq] at h
        subst h
        intro tb htb
        simp only [Option.some.injEq] at htb
        subst htb
        intro cell hc
        rcases List.mem_append.mp hc with hm | hm
        · obtain ⟨hb1, hb2⟩ := hinv tb0 hta cell hm
          constructor
          · dsimp only
            split <;> omega
          · dsimp only
            split <;> omega
        · simp only [List.mem_singleton] at hm
          subst hm
          constructor
          · dsimp only
            split <;> omega
          · dsimp only
            split <;> omega
  | other t l =>
    simp only [processRecSwitch, StepResult.step.injEq] at h
    subst h
    exact fun tb htb => hinv tb htb

theorem processRecSwitch_inv_emit (s : ScanState) (r : Rec)
    (rest : List Rec) (hinv : ScanInv s) (node : ContentNode)
    (s' : ScanState) (h : processRecSwitch s r rest = .emit node s') :
    ScanInv s' ∧ ∀ t, node = .table t → TableInBounds t := by
  unfold processRecSwitch at h
  cases r
  all_goals dsimp only at h
  all_goals try split at h
  all_goals try split at h
  all_goals try split at h
  all_goals
    first
    | exact StepResult.noConfusion h
    | (simp only [StepResult.emit.injEq] at h
       obtain ⟨hn, hs⟩ := h
       subst hn
       subst hs
       refine ⟨fun tb htb => hinv tb htb, fun t ht => ?_⟩
       exact ContentNode.noConfusion ht)

theorem processRec_inv (s : ScanState) (r : Rec) (rest : List Rec)
    (hinv : ScanInv s) :
    (∀ s', processRec s r rest = .step s' → ScanInv s') ∧
    (∀ node s', processRec s r rest = .emit node s' → ScanInv s' ∧
      ∀ t, node = .table t → TableInBounds t) := by
  rcases hta : s.currentTable with _ | tb0
  · constructor
    · intro s' h
      unfold processRec at h
      rw [hta] at h
      dsimp only at h
      exact processRecSwitch_inv_step s r rest hinv s' h
    · intro node s' h
      unfold processRec at h
      rw [hta] at h
      dsimp only at h
      exact processRecSwitch_inv_emit s r rest hinv node s' h
  · by_cases hlvl : r.lvl ≤ tb0.tableLevel
    · constructor
      · intro s' h
        unfold processRec at h
        rw [hta] at h
        dsimp only at h
        rw [if_pos hlvl] at h
        exact StepResult.noConfusion h
      · intro node s' h
        unfold processRec at h
        rw [hta] at h
        dsimp only at h
        rw [if_pos hlvl] at h
        simp only [StepResult.emit.injEq] at h
        obtain ⟨hn, hs⟩ := h
        subst hn
        subst hs
        constructor
        · intro tb htb
          exact Option.noConfusion htb
        · intro t ht
          simp only [ContentNode.table.injEq] at ht
          subst ht
          intro cell hc
          exact hinv tb0 hta cell hc
    · constructor
      · intro s' h
        unfold processRec at h
        rw [hta] at h
        dsimp only at h
        rw [if_neg hlvl] at h
        exact processRecSwitch_inv_step s r rest hinv s' h
      · intro node s' h
        unfold processRec at h
        rw [hta] at h
        dsimp only at h
        rw [if_neg hlvl] at h
        exact processRecSwitch_inv_emit s r rest hinv node s' h

theorem next_inv (s : ScanState) (hinv : ScanInv s) (node : ContentNode)
    (s' : ScanState) (h : next s = some (node, s')) :
    ScanInv s' ∧ ∀ t, node = .table t → TableInBounds t := by
  suffices H : ∀ n (s : ScanState), s.recs.length ≤ n → ScanInv s →
      ∀ node s', next s = some (node, s') →
        ScanInv s' ∧ ∀ t, node = .table t → TableInBounds t by
    exact H s.recs.length s le_rfl hinv node s' h
  intro n
  induction n with
  | zero =>
    intro s hl hinv node s' h
    have hr : s.recs = [] := List.eq_nil_of_length_eq_zero (by omega)
    rw [next, hr] at h
    dsimp only at h
    rcases hta : s.currentTable with _ | tb0 <;> rw [hta] at h
    · exact Option.noConfusion h
    · simp only [Option.some.injEq, Prod.mk.injEq] at h
      obtain ⟨hn, hs⟩ := h
      subst hn
      subst hs
      refine ⟨fun tb htb => Option.noConfusion htb, fun t ht => ?_⟩
      simp only [ContentNode.table.injEq] at ht
      subst ht
      intro cell hc
      exact hinv tb0 hta cell hc
  | succ n ih =>
    intro s hl hinv node s' h
    rcases hr : s.recs with _ | ⟨r, rest⟩
    · rw [next, hr] at h
      dsimp only at h
      rcases hta : s.currentTable with _ | tb0 <;> rw [hta] at h
      · exact Option.noConfusion h
      · simp only [Option.some.injEq, Prod.mk.injEq] at h
        obtain ⟨hn, hs⟩ := h
        subst hn
        subst hs
        refine ⟨fun tb htb => Option.noConfusion htb, fun t ht => ?_⟩
        simp only [ContentNode.table.injEq] at ht
        subst ht
        intro cell hc
        exact hinv tb0 hta cell hc
    · rw [next, hr] at h
      dsimp only at h
      rcases hps : processRec s r rest with ⟨node0, s0⟩ | ⟨s0⟩ <;> rw [hps] at h
      · simp only [Option.some.injEq, Prod.mk.injEq] at h
        obtain ⟨hn, hs⟩ := h
        subst hn
        subst hs
        exact (processRec_inv s r rest hinv).2 node0 s0 hps
      · have hlen := processRec_step_length s r rest s0 hps
        have hinv0 := (processRec_inv s r rest hinv).1 s0 hps
        exact ih s0 (by rw [hr] at hl; simp at hl; omega) hinv0 node s' h

theorem processRecSwitch_monotone (s : ScanState) (r : Rec)
    (rest : List Rec) (tb : TableBuilder) (hta : s.currentTable = some tb)
    (s' : ScanState) (tb' : TableBuilder)
    (h : processRecSwitch s r rest = .step s')
    (htb' : s'.currentTable = some tb') :
    tb.rows ≤ tb'.rows ∧ tb.cols ≤ tb'.cols := by
  cases r with
  | paraHeader l =>
    simp only [processRecSwitch, StepResult.step.injEq] at h
    subst h
    simp only [hta, Option.some.injEq] at htb'
    subst htb'
    exact ⟨le_rfl, le_rfl⟩
  | paraText l els =>
    rcases hpa : s.currentPara with _ | parts <;>
      simp only [processRecSwitch, hpa, StepResult.step.injEq] at h <;>
      subst h <;>
      simp only [hta, Option.some.injEq] at htb' <;>
      subst htb' <;>
      exact ⟨le_rfl, le_rfl⟩
  | paraCharShape l =>
    rcases hpa : s.currentPara with _ | parts
    · simp only [processRecSwitch, hpa, StepResult.step.injEq] at h
      subst h
      simp only [hta, Option.some.injEq] at htb'
      subst htb'
      exact ⟨le_rfl, le_rfl⟩
    · rcases htc : tb.currentCell with _ | i
      · simp only [processRecSwitch, hpa, hta, htc] at h
        exact StepResult.noConfusion h
      · simp only [processRecSwitch, hpa, hta, htc,
          StepResult.step.injEq] at h
        subst h
        simp only [Option.some.injEq] at htb'
        subst htb'
        exact ⟨le_rfl, le_rfl⟩
  | paraLineSeg l =>
    rcases hpa : s.currentPara with _ | parts
    · simp only [processRecSwitch, hpa, StepResult.step.injEq] at h
      subst h
      simp only [hta, Option.some.injEq] at htb'
      subst htb'
      exact ⟨le_rfl, le_rfl⟩
    · rcases htc : tb.currentCell with _ | i
      · simp only [processRecSwitch, hpa, hta, htc] at h
        exact StepResult.noConfusion h
      · simp only [processRecSwitch, hpa, hta, htc,
          StepResult.step.injEq] at h
        subst h
        simp only [Option.some.injEq] at htb'
        subst htb'
        exact ⟨le_rfl, le_rfl⟩
  | ctrlHeader l cid =>
    by_cases h1 : cid = 0x74626c20
    · simp only [processRecSwitch, if_pos h1, StepResult.step.injEq] at h
      subst h
      simp only [hta, Option.some.injEq] at htb'
      subst htb'
      exact ⟨le_rfl, le_rfl⟩
    · by_cases h2 : cid = 0x67736f20
      · simp only [processRecSwitch, if_neg h1, if_pos h2] at h
        exact StepResult.noConfusion h
      · simp only [processRecSwitch, if_neg h1, if_neg h2,
          StepResult.step.injEq] at h
        subst h
        simp only [hta, Option.some.injEq] at htb'
        subst htb'
        exact ⟨le_rfl, le_rfl⟩
  | table l rc cc =>
    simp only [processRecSwitch, hta, StepResult.step.injEq] at h
    subst h
    simp only [hta, Option.some.injEq] at htb'
    subst htb'
    exact ⟨le_rfl, le_rfl⟩
  | listHeader l isc ri ci rs cs =>
    cases isc with
    | false =>
      simp only [processRecSwitch, hta, Bool.false_eq_true, if_neg,
        StepResult.step.injEq, reduceIte] at h
      subst h
      simp only [Option.some.injEq] at htb'
      subst htb'
      exact ⟨le_rfl, le_rfl⟩
    | true =>
      simp only [processRecSwitch, hta, reduceIte,
        StepResult.step.injEq] at h
      subst h
      simp only [Option.some.injEq] at htb'
      subst htb'
      constructor
      · dsimp only
        split <;> omega
      · dsimp only
        split <;> omega
  | other t l =>
    simp only [processRecSwitch, StepResult.step.injEq] at h
    subst h
    simp only [hta, Option.some.injEq] at htb'
    subst htb'
    exact ⟨le_rfl, le_rfl⟩

/-- C9: every `Table` node emitted by the assembly state machine
satisfies the bounds invariant.  Formally: (1) from any state whose
in-progress builder has in-bounds cells (`ScanInv` — in particular the
initial state, which has no builder), any `Table` node `next` emits has
every cell's `row + rowSpan` at most the table's row count and
`col + colSpan` at most its column count, and the invariant is
preserved; (2) a table-size record seen with no table in progress
creates the builder with exactly the declared row and column counts as
initial bounds; (3) no step ever shrinks the in-progress builder's
bounds — the declared size is a lower bound, corrected upward only. -/
theorem table_bounds_invariant :
    (∀ s, ScanInv s → ∀ node s', next s = some (node, s') →
      ScanInv s' ∧ ∀ t, node = .table t → TableInBounds t) ∧
    (∀ (s : ScanState) (rest : List Rec) (lvl rc cc : Nat),
      s.currentTable = none →
      processRec s (Rec.table lvl rc cc) rest =
        .step
          { s with
              recs := rest,
              currentTable := some ⟨rc, cc, [], none, s.tableLevel⟩ }) ∧
    (∀ s r rest tb s' tb', s.currentTable = some tb →
      processRec s r rest = .step s' → s'.currentTable = some tb' →
      tb.rows ≤ tb'.rows ∧ tb.cols ≤ tb'.cols) := by
  refine ⟨fun s hinv node s' h => next_inv s hinv node s' h,
    fun s rest lvl rc cc hta => ?_, ?_⟩
  · simp only [processRec, processRecSwitch, hta]
  · intro s r rest tb s' tb' hta hstep htb'
    unfold processRec at hstep
    rw [hta] at hstep
    dsimp only at hstep
    split at hstep
    · exact StepResult.noConfusion hstep
    · exact processRecSwitch_monotone s r rest tb hta s' tb' hstep htb'

/-- Witness for C9: a finalized one-cell 2x2 table is emitted with its
cell in bounds, and a table-size record with no table in progress
creates the builder with the declared 4x5 bounds. -/
theorem table_bounds_invariant_witness :
    TableInBounds ⟨2, 2, [⟨0, 0, 1, 1, []⟩]⟩ ∧
    processRec ⟨[], none, none, 9⟩ (Rec.table 1 4 5) [] =
      .step ⟨[], none, some ⟨4, 5, [], none, 9⟩, 9⟩ := by
  have h := table_bounds_invariant
  constructor
  · have h1 := h.1 ⟨[], none, some ⟨2, 2, [⟨0, 0, 1, 1, []⟩], none, 7⟩, 0⟩
      (by
        intro tb htb
        simp only [Option.some.injEq] at htb
        subst htb
        intro cell hc
        simp only [List.mem_singleton] at hc
        subst hc
        exact ⟨by norm_num, by norm_num⟩)
      (.table ⟨2, 2, [⟨0, 0, 1, 1, []⟩]⟩) ⟨[], none, none, 0⟩
      (by rw [next]; rfl)
    exact h1.2 _ rfl
  · exact h.2.1 ⟨[], none, none, 9⟩ [] 1 4 5 rfl

end HwpV5

namespace Render

/-- Row display-line counts (`computeRowHeights`, table.go:127-142):
the maximum line count among cells starting in the row, at least 1. -/
def rowHeight (t : Table) (row : Nat) : Nat :=
  t.cells.foldl
    (fun m cell =>
      if cell.row = row then
        if (splitLines cell.text).length > m then (splitLines cell.text).length
        else m
      else m)
    1

/-- Horizontal border predicate (`needsHorizontalLine`,
table.go:195-208); `rowIdx = -1` is the top border, `rows - 1` the
bottom, and in between a segment is drawn iff the owners above and
below differ. -/
def needsHorizontalLine (t : Table) (rowIdx : Int) (colIdx : Nat) : Bool :=
  if rowIdx = -1 then true
  else if rowIdx = (t.rows : Int) - 1 then true
  else
    decide (cellOwner t rowIdx.toNat colIdx ≠ cellOwner t (rowIdx.toNat + 1) colIdx)

/-- Vertical border predicate (`needsVerticalLine`, table.go:210-225):
drawn iff the owners left/right differ on the row above or the row
below the border line; first and last are always drawn. -/
def needsVerticalLine (t : Table) (rowIdx : Int) (colIdx : Nat) : Bool :=
  if rowIdx = -1 then true
  else if rowIdx = (t.rows : Int) - 1 then true
  else
    decide (cellOwner t rowIdx.toNat colIdx ≠ cellOwner t rowIdx.toNat (colIdx + 1)) ||
    decide (cellOwner t (rowIdx.toNat + 1) colIdx ≠
      cellOwner t (rowIdx.toNat + 1) (colIdx + 1))

/-- One horizontal border line (`renderBorderLine`, table.go:167-193)
over the computed column widths `ws` (`l.colWidths`); characters are
code points: 43 for the plus sign, 45 for the dash, 32 for the space,
124 for the bar. -/
def renderBorderLine (t : Table) (ws : List Nat) (rowIdx : Int) : List Nat :=
  43 ::
    (List.range t.cols).foldr
      (fun colIdx acc =>
        (if needsHorizontalLine t rowIdx colIdx then
          List.replicate (ws.getD colIdx 0 + 2) 45
         else
          List.replicate (ws.getD colIdx 0 + 2) 32) ++
        (if colIdx < t.cols - 1 then
          [if needsVerticalLine t rowIdx colIdx then 43 else 45]
         else []) ++
        acc)
      [43]

/-- The column loop of `renderContentLine` (table.go:235-284).  `fuel`
bounds the iteration count; every iteration advances `colIdx` by at
least one when every cell has positive `colSpan` (a zero-span cell
would loop forever in the source), so the `t.cols` budget
`renderContentLine` passes always suffices. -/
def contentLoop (w : Nat → Nat) (t : Table) (ws : List Nat)
    (rowIdx displayRowIdx : Nat) : Nat → Nat → List Nat
  | 0, _ => []
  | fuel + 1, colIdx =>
    if colIdx < t.cols then
      match cellOwner t rowIdx colIdx with
      | none => contentLoop w t ws rowIdx displayRowIdx fuel (colIdx + 1)
      | some i =>
        let owner := t.cells.getD i ⟨0, 0, [], 0, 0⟩
        if owner.col = colIdx then
          let totalContentWidth := spannedSum ws colIdx owner.colSpan +
            (if 1 < owner.colSpan then (owner.colSpan - 1) * 3 else 0)
          let text := if owner.row = rowIdx then
              (splitLines owner.text).getD displayRowIdx []
            else []
          (32 :: (text ++
            List.replicate (totalContentWidth - displayWidth w text) 32 ++
            [32])) ++
          (if colIdx + owner.colSpan < t.cols then [124] else []) ++
          contentLoop w t ws rowIdx displayRowIdx fuel (colIdx + owner.colSpan)
        else contentLoop w t ws rowIdx displayRowIdx fuel (colIdx + 1)
    else []

/-- One content display line (`renderContentLine`, table.go:230-289). -/
def renderContentLine (w : Nat → Nat) (t : Table) (ws : List Nat)
    (rowIdx displayRowIdx : Nat) : List Nat :=
  124 :: (contentLoop w t ws rowIdx displayRowIdx t.cols 0 ++ [124])

/-- The lines emitted by `Layout.render` (table.go:144-163): top
border, then for each table row its content display lines followed by
its border line. -/
def renderLines (w : Nat → Nat) (t : Table) : List (List Nat) :=
  renderBorderLine t (computeColWidths w t) (-1) ::
    (List.range t.rows).foldr
      (fun rowIdx acc =>
        ((List.range (rowHeight t rowIdx)).map
          (fun d => renderContentLine w t (computeColWidths w t) rowIdx d)) ++
        (renderBorderLine t (computeColWidths w t) (rowIdx : Int) :: acc))
      []

/-- The rendered string of `Layout.render`: every line followed by a
newline (10). -/
def render (w : Nat → Nat) (t : Table) : List Nat :=
  (renderLines w t).foldr (fun line acc => line ++ 10 :: acc) []

theorem displayWidth_append (w : Nat → Nat) (a b : List Nat) :
    displayWidth w (a ++ b) = displayWidth w a + displayWidth w b := by
  simp [displayWidth]

theorem displayWidth_replicate (w : Nat → Nat) (n c : Nat) :
    displayWidth w (List.replicate n c) = n * w c := by
  simp [displayWidth, List.map_replicate, List.sum_replicate]

theorem displayWidth_cons (w : Nat → Nat) (c : Nat) (a : List Nat) :
    displayWidth w (c :: a) = w c + displayWidth w a := by
  simp [displayWidth]

end Render

namespace Render

theorem getD_set_cases (l : List Nat) (i j a : Nat) :
    (l.set i a).getD j 0 =
      if i = j ∧ i < l.length then a else l.getD j 0 := by
  by_cases hij : i = j
  · subst hij
    by_cases hl : i < l.length
    · rw [List.getD_eq_getElem?_getD, List.getElem?_set]
      simp [hl]
    · have hnone : l[i]? = none := List.getElem?_eq_none (by omega)
      rw [List.getD_eq_getElem?_getD, List.getElem?_set]
      simp [hl, hnone, List.getD_eq_getElem?_getD]
  · rw [List.getD_eq_getElem?_getD, List.getElem?_set]
    simp [hij, List.getD_eq_getElem?_getD]

/-- One step of the span-1 pass never lowers any column. -/
theorem setSingleStep_mono (w : Nat → Nat) (ws : List Nat) (cell : Cell)
    (i : Nat) :
    ws.getD i 0 ≤
      (if cell.colSpan = 1 then
        if cellMaxWidth w cell > ws.getD cell.col 0 then
          ws.set cell.col (cellMaxWidth w cell)
        else ws
      else ws).getD i 0 := by
  split
  · split
    case isTrue hgt =>
      rw [getD_set_cases]
      split
      case isTrue hc =>
        obtain ⟨hceq, _⟩ := hc
        subst hceq
        omega
      case isFalse hc => exact le_rfl
    case isFalse => exact le_rfl
  · exact le_rfl

theorem setSingleColWidths_length (w : Nat → Nat) (cells : List Cell)
    (ws : List Nat) :
    (setSingleColWidths w cells ws).length = ws.length := by
  induction cells generalizing ws with
  | nil => rfl
  | cons cell cs ih =>
    show (setSingleColWidths w cs _).length = _
    rw [ih]
    dsimp only
    split
    · split
      · exact List.length_set _ _ _
      · rfl
    · rfl

theorem setSingleColWidths_mono (w : Nat → Nat) (cells : List Cell)
    (ws : List Nat) (i : Nat) :
    ws.getD i 0 ≤ (setSingleColWidths w cells ws).getD i 0 := by
  induction cells generalizing ws with
  | nil => exact le_rfl
  | cons cell cs ih =>
    exact le_trans (setSingleStep_mono w ws cell i) (ih _)

/-- After the span-1 pass, every span-1 cell's column is at least its
required width. -/
theorem setSingleColWidths_ensures (w : Nat → Nat) (cells : List Cell)
    (ws : List Nat) (cell : Cell) (hc : cell ∈ cells)
    (hspan : cell.colSpan = 1) (hcol : cell.col < ws.length) :
    cellMaxWidth w cell ≤ (setSingleColWidths w cells ws).getD cell.col 0 := by
  induction cells generalizing ws with
  | nil => cases hc
  | cons c0 cs ih =>
    rcases List.mem_cons.mp hc with rfl | hc
    · refine le_trans ?_ (setSingleColWidths_mono w cs _ cell.col)
      dsimp only
      rw [if_pos hspan]
      split
      case isTrue hgt =>
        rw [getD_set_cases, if_pos ⟨rfl, hcol⟩]
      case isFalse hgt => omega
    · refine ih _ hc ?_
      dsimp only
      split
      · split
        · rw [List.length_set]
          exact hcol
        · exact hcol
      · exact hcol

theorem spannedSum_one (ws : List Nat) (col : Nat) :
    spannedSum ws col 1 = ws.getD col 0 := by
  simp [spannedSum]

/-- The maximum line width of a single-character cell is that
character's width. -/
theorem cellMaxWidth_single (w : Nat → Nat) (r c rs cs x : Nat)
    (hx : x ≠ 10) :
    cellMaxWidth w ⟨r, c, [x], rs, cs⟩ = w x := by
  simp only [cellMaxWidth, splitLines, if_neg hx, displayWidth,
    List.foldl_cons, List.foldl_nil, List.map_cons, List.map_nil,
    List.sum_cons, List.sum_nil]
  split <;> omega

end Render

namespace Render

theorem displayWidth_nil (w : Nat → Nat) : displayWidth w [] = 0 := rfl

/-- C8: rendering a full 2-row by 3-column grid of span-1
single-character cells (characters that are not the newline) produces
exactly five lines — top border, one content line, middle border, one
content line, bottom border — each followed by a newline in the
rendered string, and every line has the same display width, namely the
sum of the three column widths plus 10 (four border/separator columns
and six padding spaces). -/
theorem render_2x3_grid (w : Nat → Nat) (x00 x01 x02 x10 x11 x12 : Nat)
    (t : Table)
    (ht : t = ⟨2, 3, [⟨0, 0, [x00], 1, 1⟩, ⟨0, 1, [x01], 1, 1⟩,
      ⟨0, 2, [x02], 1, 1⟩, ⟨1, 0, [x10], 1, 1⟩, ⟨1, 1, [x11], 1, 1⟩,
      ⟨1, 2, [x12], 1, 1⟩]⟩)
    (hw43 : w 43 = 1) (hw45 : w 45 = 1) (hw124 : w 124 = 1)
    (hw32 : w 32 = 1)
    (h00 : x00 ≠ 10) (h01 : x01 ≠ 10) (h02 : x02 ≠ 10)
    (h10 : x10 ≠ 10) (h11 : x11 ≠ 10) (h12 : x12 ≠ 10) :
    renderLines w t =
      [renderBorderLine t (computeColWidths w t) (-1),
       renderContentLine w t (computeColWidths w t) 0 0,
       renderBorderLine t (computeColWidths w t) 0,
       renderContentLine w t (computeColWidths w t) 1 0,
       renderBorderLine t (computeColWidths w t) 1] ∧
    (renderLines w t).length = 5 ∧
    render w t =
      (renderLines w t).foldr (fun line acc => line ++ 10 :: acc) [] ∧
    ∀ line ∈ renderLines w t,
      displayWidth w line = (computeColWidths w t).sum + 10 := by
  subst ht
  have hr0 : rowHeight ⟨2, 3, [⟨0, 0, [x00], 1, 1⟩,
      ⟨0, 1, [x01], 1, 1⟩, ⟨0, 2, [x02], 1, 1⟩, ⟨1, 0, [x10], 1, 1⟩,
      ⟨1, 1, [x11], 1, 1⟩, ⟨1, 2, [x12], 1, 1⟩]⟩ 0 = 1 := by
    simp [rowHeight, splitLines, h00, h01, h02, h10, h11, h12]
  have hr1 : rowHeight ⟨2, 3, [⟨0, 0, [x00], 1, 1⟩,
      ⟨0, 1, [x01], 1, 1⟩, ⟨0, 2, [x02], 1, 1⟩, ⟨1, 0, [x10], 1, 1⟩,
      ⟨1, 1, [x11], 1, 1⟩, ⟨1, 2, [x12], 1, 1⟩]⟩ 1 = 1 := by
    simp [rowHeight, splitLines, h00, h01, h02, h10, h11, h12]
  have hlines : renderLines w ⟨2, 3, [⟨0, 0, [x00], 1, 1⟩,
      ⟨0, 1, [x01], 1, 1⟩, ⟨0, 2, [x02], 1, 1⟩, ⟨1, 0, [x10], 1, 1⟩,
      ⟨1, 1, [x11], 1, 1⟩, ⟨1, 2, [x12], 1, 1⟩]⟩ =
      [renderBorderLine ⟨2, 3, [⟨0, 0, [x00], 1, 1⟩,
        ⟨0, 1, [x01], 1, 1⟩, ⟨0, 2, [x02], 1, 1⟩, ⟨1, 0, [x10], 1, 1⟩,
        ⟨1, 1, [x11], 1, 1⟩, ⟨1, 2, [x12], 1, 1⟩]⟩ (computeColWidths w ⟨2, 3, [⟨0, 0, [x00], 1, 1⟩,
        ⟨0, 1, [x01], 1, 1⟩, ⟨0, 2, [x02], 1, 1⟩, ⟨1, 0, [x10], 1, 1⟩,
        ⟨1, 1, [x11], 1, 1⟩, ⟨1, 2, [x12], 1, 1⟩]⟩) (-1),
       renderContentLine w ⟨2, 3, [⟨0, 0, [x00], 1, 1⟩,
        ⟨0, 1, [x01], 1, 1⟩, ⟨0, 2, [x02], 1, 1⟩, ⟨1, 0, [x10], 1, 1⟩,
        ⟨1, 1, [x11], 1, 1⟩, ⟨1, 2, [x12], 1, 1⟩]⟩ (computeColWidths w ⟨2, 3, [⟨0, 0, [x00], 1, 1⟩,
        ⟨0, 1, [x01], 1, 1⟩, ⟨0, 2, [x02], 1, 1⟩, ⟨1, 0, [x10], 1, 1⟩,
        ⟨1, 1, [x11], 1, 1⟩, ⟨1, 2, [x12], 1, 1⟩]⟩) 0 0,
       renderBorderLine ⟨2, 3, [⟨0, 0, [x00], 1, 1⟩,
        ⟨0, 1, [x01], 1, 1⟩, ⟨0, 2, [x02], 1, 1⟩, ⟨1, 0, [x10], 1, 1⟩,
        ⟨1, 1, [x11], 1, 1⟩, ⟨1, 2, [x12], 1, 1⟩]⟩ (computeColWidths w ⟨2, 3, [⟨0, 0, [x00], 1, 1⟩,
        ⟨0, 1, [x01], 1, 1⟩, ⟨0, 2, [x02], 1, 1⟩, ⟨1, 0, [x10], 1, 1⟩,
        ⟨1, 1, [x11], 1, 1⟩, ⟨1, 2, [x12], 1, 1⟩]⟩) 0,
       renderContentLine w ⟨2, 3, [⟨0, 0, [x00], 1, 1⟩,
        ⟨0, 1, [x01], 1, 1⟩, ⟨0, 2, [x02], 1, 1⟩, ⟨1, 0, [x10], 1, 1⟩,
        ⟨1, 1, [x11], 1, 1⟩, ⟨1, 2, [x12], 1, 1⟩]⟩ (computeColWidths w ⟨2, 3, [⟨0, 0, [x00], 1, 1⟩,
        ⟨0, 1, [x01], 1, 1⟩, ⟨0, 2, [x02], 1, 1⟩, ⟨1, 0, [x10], 1, 1⟩,
        ⟨1, 1, [x11], 1, 1⟩, ⟨1, 2, [x12], 1, 1⟩]⟩) 1 0,
       renderBorderLine ⟨2, 3, [⟨0, 0, [x00], 1, 1⟩,
        ⟨0, 1, [x01], 1, 1⟩, ⟨0, 2, [x02], 1, 1⟩, ⟨1, 0, [x10], 1, 1⟩,
        ⟨1, 1, [x11], 1, 1⟩, ⟨1, 2, [x12], 1, 1⟩]⟩ (computeColWidths w ⟨2, 3, [⟨0, 0, [x00], 1, 1⟩,
        ⟨0, 1, [x01], 1, 1⟩, ⟨0, 2, [x02], 1, 1⟩, ⟨1, 0, [x10], 1, 1⟩,
        ⟨1, 1, [x11], 1, 1⟩, ⟨1, 2, [x12], 1, 1⟩]⟩) 1] := by
    simp only [renderLines]
    try dsimp only
    rw [show List.range 2 = [0, 1] from rfl]
    simp only [List.foldr_cons, List.foldr_nil, hr0, hr1]
    rw [show List.range 1 = [0] from rfl]
    simp
  have hcw : computeColWidths w ⟨2, 3, [⟨0, 0, [x00], 1, 1⟩,
      ⟨0, 1, [x01], 1, 1⟩, ⟨0, 2, [x02], 1, 1⟩, ⟨1, 0, [x10], 1, 1⟩,
      ⟨1, 1, [x11], 1, 1⟩, ⟨1, 2, [x12], 1, 1⟩]⟩ =
      setSingleColWidths w [⟨0, 0, [x00], 1, 1⟩, ⟨0, 1, [x01], 1, 1⟩,
      ⟨0, 2, [x02], 1, 1⟩, ⟨1, 0, [x10], 1, 1⟩, ⟨1, 1, [x11], 1, 1⟩,
      ⟨1, 2, [x12], 1, 1⟩] (List.replicate 3 1) := by
    simp [computeColWidths, distributeCell]
  have hlen3 : (computeColWidths w ⟨2, 3, [⟨0, 0, [x00], 1, 1⟩,
      ⟨0, 1, [x01], 1, 1⟩, ⟨0, 2, [x02], 1, 1⟩, ⟨1, 0, [x10], 1, 1⟩,
      ⟨1, 1, [x11], 1, 1⟩, ⟨1, 2, [x12], 1, 1⟩]⟩).length = 3 := by
    rw [hcw, setSingleColWidths_length]
    simp
  obtain ⟨a, b, c, habc⟩ := List.length_eq_three.mp hlen3
  have hens : ∀ cell ∈ [(⟨0, 0, [x00], 1, 1⟩ : Cell), ⟨0, 1, [x01], 1, 1⟩,
      ⟨0, 2, [x02], 1, 1⟩, ⟨1, 0, [x10], 1, 1⟩, ⟨1, 1, [x11], 1, 1⟩,
      ⟨1, 2, [x12], 1, 1⟩], cell.colSpan = 1 → cell.col < 3 →
      cellMaxWidth w cell ≤ [a, b, c].getD cell.col 0 := by
    intro cell hm hsp hcol
    have := setSingleColWidths_ensures w [⟨0, 0, [x00], 1, 1⟩,
      ⟨0, 1, [x01], 1, 1⟩, ⟨0, 2, [x02], 1, 1⟩, ⟨1, 0, [x10], 1, 1⟩,
      ⟨1, 1, [x11], 1, 1⟩, ⟨1, 2, [x12], 1, 1⟩] (List.replicate 3 1)
      cell hm hsp (by simpa using hcol)
    rw [← hcw, habc] at this
    exact this
  have ha0 : w x00 ≤ a := by
    have := hens ⟨0, 0, [x00], 1, 1⟩ (by simp) rfl (by norm_num)
    rwa [cellMaxWidth_single w _ _ _ _ _ h00] at this
  have hb0 : w x01 ≤ b := by
    have := hens ⟨0, 1, [x01], 1, 1⟩ (by simp) rfl (by norm_num)
    rwa [cellMaxWidth_single w _ _ _ _ _ h01] at this
  have hc0 : w x02 ≤ c := by
    have := hens ⟨0, 2, [x02], 1, 1⟩ (by simp) rfl (by norm_num)
    rwa [cellMaxWidth_single w _ _ _ _ _ h02] at this
  have ha1 : w x10 ≤ a := by
    have := hens ⟨1, 0, [x10], 1, 1⟩ (by simp) rfl (by norm_num)
    rwa [cellMaxWidth_single w _ _ _ _ _ h10] at this
  have hb1 : w x11 ≤ b := by
    have := hens ⟨1, 1, [x11], 1, 1⟩ (by simp) rfl (by norm_num)
    rwa [cellMaxWidth_single w _ _ _ _ _ h11] at this
  have hc1 : w x12 ≤ c := by
    have := hens ⟨1, 2, [x12], 1, 1⟩ (by simp) rfl (by norm_num)
    rwa [cellMaxWidth_single w _ _ _ _ _ h12] at this
  have hseg : ∀ (cond : Bool) (n : Nat),
      displayWidth w (if cond = true then List.replicate n 45
        else List.replicate n 32) = n := by
    intro cond n
    cases cond <;> simp [displayWidth_replicate, hw45, hw32]
  have hsep : ∀ (cond : Bool), w (if cond = true then 43 else 45) = 1 := by
    intro cond
    cases cond <;> simp [hw43, hw45]
  have hdwB : ∀ rowIdx : Int,
      displayWidth w (renderBorderLine ⟨2, 3, [⟨0, 0, [x00], 1, 1⟩,
        ⟨0, 1, [x01], 1, 1⟩, ⟨0, 2, [x02], 1, 1⟩, ⟨1, 0, [x10], 1, 1⟩,
        ⟨1, 1, [x11], 1, 1⟩, ⟨1, 2, [x12], 1, 1⟩]⟩ [a, b, c] rowIdx) =
        a + b + c + 10 := by
    intro rowIdx
    simp only [renderBorderLine]
    try dsimp only
    rw [show List.range 3 = [0, 1, 2] from rfl]
    norm_num [List.foldr_cons, List.foldr_nil]
    simp only [displayWidth_append, displayWidth_cons, displayWidth_nil,
      hseg, hsep, hw43]
    omega
  have hcl0 : contentLoop w ⟨2, 3, [⟨0, 0, [x00], 1, 1⟩,
      ⟨0, 1, [x01], 1, 1⟩, ⟨0, 2, [x02], 1, 1⟩, ⟨1, 0, [x10], 1, 1⟩,
      ⟨1, 1, [x11], 1, 1⟩, ⟨1, 2, [x12], 1, 1⟩]⟩ [a, b, c] 0 0 3 0 =
      (32 :: ([x00] ++ List.replicate (a - w x00) 32 ++ [32])) ++ [124] ++
      ((32 :: ([x01] ++ List.replicate (b - w x01) 32 ++ [32])) ++ [124] ++
      ((32 :: ([x02] ++ List.replicate (c - w x02) 32 ++ [32])) ++ [] ++ [])) := by
    simp [contentLoop, cellOwner, cellOwnerGo, spannedSum, splitLines,
      h00, h01, h02, displayWidth]
  have hcl1 : contentLoop w ⟨2, 3, [⟨0, 0, [x00], 1, 1⟩,
      ⟨0, 1, [x01], 1, 1⟩, ⟨0, 2, [x02], 1, 1⟩, ⟨1, 0, [x10], 1, 1⟩,
      ⟨1, 1, [x11], 1, 1⟩, ⟨1, 2, [x12], 1, 1⟩]⟩ [a, b, c] 1 0 3 0 =
      (32 :: ([x10] ++ List.replicate (a - w x10) 32 ++ [32])) ++ [124] ++
      ((32 :: ([x11] ++ List.replicate (b - w x11) 32 ++ [32])) ++ [124] ++
      ((32 :: ([x12] ++ List.replicate (c - w x12) 32 ++ [32])) ++ [] ++ [])) := by
    simp [contentLoop, cellOwner, cellOwnerGo, spannedSum, splitLines,
      h10, h11, h12, displayWidth]
  have hdwC0 : displayWidth w (renderContentLine w ⟨2, 3,
      [⟨0, 0, [x00], 1, 1⟩, ⟨0, 1, [x01], 1, 1⟩, ⟨0, 2, [x02], 1, 1⟩,
       ⟨1, 0, [x10], 1, 1⟩, ⟨1, 1, [x11], 1, 1⟩, ⟨1, 2, [x12], 1, 1⟩]⟩
      [a, b, c] 0 0) = a + b + c + 10 := by
    rw [renderContentLine]
    try dsimp only
    rw [hcl0]
    simp only [displayWidth_append, displayWidth_cons, displayWidth_nil,
      displayWidth_replicate, hw124, hw32]
    omega
  have hdwC1 : displayWidth w (renderContentLine w ⟨2, 3,
      [⟨0, 0, [x00], 1, 1⟩, ⟨0, 1, [x01], 1, 1⟩, ⟨0, 2, [x02], 1, 1⟩,
       ⟨1, 0, [x10], 1, 1⟩, ⟨1, 1, [x11], 1, 1⟩, ⟨1, 2, [x12], 1, 1⟩]⟩
      [a, b, c] 1 0) = a + b + c + 10 := by
    rw [renderContentLine]
    try dsimp only
    rw [hcl1]
    simp only [displayWidth_append, displayWidth_cons, displayWidth_nil,
      displayWidth_replicate, hw124, hw32]
    omega
  have hsum : (computeColWidths w ⟨2, 3, [⟨0, 0, [x00], 1, 1⟩,
      ⟨0, 1, [x01], 1, 1⟩, ⟨0, 2, [x02], 1, 1⟩, ⟨1, 0, [x10], 1, 1⟩,
      ⟨1, 1, [x11], 1, 1⟩, ⟨1, 2, [x12], 1, 1⟩]⟩).sum = a + b + c := by
    rw [habc]
    simp only [List.sum_cons, List.sum_nil]
    omega
  refine ⟨hlines, by rw [hlines]; rfl, rfl, ?_⟩
  rw [hlines, hsum, habc]
  intro line hline
  simp only [List.mem_cons, List.not_mem_nil, or_false] at hline
  rcases hline with rfl | rfl | rfl | rfl | rfl
  · exact hdwB (-1)
  · exact hdwC0
  · exact hdwB 0
  · exact hdwC1
  · exact hdwB 1

/-- Witness for C8: the 2x3 grid of the character 65 under the
all-ones width function. -/
theorem render_2x3_grid_witness :
    (renderLines (fun _ => 1) ⟨2, 3, [⟨0, 0, [65], 1, 1⟩,
      ⟨0, 1, [65], 1, 1⟩, ⟨0, 2, [65], 1, 1⟩, ⟨1, 0, [65], 1, 1⟩,
      ⟨1, 1, [65], 1, 1⟩, ⟨1, 2, [65], 1, 1⟩]⟩).length = 5 ∧
    ∀ line ∈ renderLines (fun _ => 1) ⟨2, 3, [⟨0, 0, [65], 1, 1⟩,
      ⟨0, 1, [65], 1, 1⟩, ⟨0, 2, [65], 1, 1⟩, ⟨1, 0, [65], 1, 1⟩,
      ⟨1, 1, [65], 1, 1⟩, ⟨1, 2, [65], 1, 1⟩]⟩,
      displayWidth (fun _ => 1) line =
        (computeColWidths (fun _ => 1) ⟨2, 3, [⟨0, 0, [65], 1, 1⟩,
          ⟨0, 1, [65], 1, 1⟩, ⟨0, 2, [65], 1, 1⟩, ⟨1, 0, [65], 1, 1⟩,
          ⟨1, 1, [65], 1, 1⟩, ⟨1, 2, [65], 1, 1⟩]⟩).sum + 10 := by
  have h := render_2x3_grid (fun _ => 1) 65 65 65 65 65 65 _ rfl rfl rfl
    rfl rfl (by norm_num) (by norm_num) (by norm_num) (by norm_num)
    (by norm_num) (by norm_num)
  exact ⟨h.2.1, h.2.2.2⟩

end Render
